import Mathlib

/-!
The note collection of a pattern (`src/tracks/pattern.cpp`)

A shallow embedding of the note-holding part of class `pattern`: the ordered
vector of notes, the beat/melody classification, the step grid, the derived
length and the persisted record; and of the freeze thread, which renders the
pattern into a sample buffer.

Conventions of the embedding.

* `m_notes` is a vector of pointers to heap notes owned by the pattern.  It is
  embedded as a list of `note` values, each carrying the address of the heap
  object (`addr`) next to its fields; pointer equality is equality of
  addresses, and an in-place change through a pointer is a change of the list
  element.  `new note` takes the address `heapTop` and increments it.
* C++ `int` / `Sint32` values are integers.  The arithmetic of `length()` and
  the arithmetic on `m_steps` in `addSteps` and `removeSteps` is 32-bit: every
  result is reduced by `wrap32`, the two's complement wrap-around that the
  compiled code shows.  The positions `i * BEATS_PER_TACT` of the steps are
  computed exactly; they are in range for fewer than 2^29 steps.  `/` and `%`
  are the truncating `Int.tdiv` / `Int.tmod`.  A `midiTime` is identified with
  its `int` conversion (`tact * 64 + tact64th`).
* `Uint8` volumes are natural numbers, reduced modulo 256 when stored.
* Painting, the piano roll, the mixer lock, the modified flag of the song
  editor and the beat/bassline editor are not part of the state: `update()`
  keeps only its `changeLength( length() )`.
-/

/-- Modelled from the spec: the constant `BEATS_PER_TACT` is declared in a header
that is not among the sources; one step is four of the 64 units of a tact. -/
def BEATS_PER_TACT : Int := 4

/-- Modelled from the spec: the constant `DEFAULT_STEPS_PER_TACT` is declared in a
header that is not among the sources; the default step grid has 16 steps. -/
def DEFAULT_STEPS_PER_TACT : Int := 16

/-- The value of a 32-bit signed integer operation: the exact result reduced to
the range from -2147483648 to 2147483647 by two's complement wrap-around. -/
def wrap32 (x : Int) : Int := (x + 2147483648) % 4294967296 - 2147483648

/-- Modelled from the spec: class `note` (note.h, note.cpp) is not among the
sources.  A note has a position, a signed length, a key and a volume; `addr` is
the address of the heap object, by which `removeNote` recognises it. -/
structure note where
  addr : Nat
  pos : Int
  length : Int
  key : Int
  volume : Nat
deriving DecidableEq, Repr

/-- Modelled from the spec: `note::endPos()`, position plus length. -/
def note.endPos (n : note) : Int := n.pos + n.length

/-- Modelled from the spec: `note::setLength`, assignment of the length. -/
def note.setLength (n : note) (l : Int) : note := { n with length := l }

/-- Modelled from the spec: `note::setVolume`, assignment of the volume, the
argument being converted to `Uint8`. -/
def note.setVolume (n : note) (v : Int) : note := { n with volume := (v % 256).toNat }

/-- What the pattern code reads from declarations outside `pattern.cpp`.

* `quantDefault`: the default value of the parameter `_quant_pos` of `addNote`
  (declared in pattern.h), used by the one-argument call in `ensureBeatNotes`;
* `quantizePos`: the effect of `note::quantizePos` on a position for the
  quantization currently selected in the piano roll;
* `stepKey`, `stepVolume`: key and volume that the constructor
  `note( length, pos )` gives a note when they are not passed. -/
structure environment where
  quantDefault : Bool
  quantizePos : Int → Int
  stepKey : Int
  stepVolume : Nat

/-- Value of `pattern::BEAT_PATTERN` in the enumeration `patternTypes`. -/
def BEAT_PATTERN : Int := 0

/-- Value of `pattern::MELODY_PATTERN` in the enumeration `patternTypes`. -/
def MELODY_PATTERN : Int := 1

/-- State of a `pattern` object: its own members, the members of
`trackContentObject` that `saveSettings` / `loadSettings` use (`m_muted`,
`m_startPosition`, `m_length`) and the allocation pointer `heapTop`. -/
structure pattern where
  m_notes : List note
  m_patternType : Int
  m_name : String
  m_steps : Int
  m_frozenPattern : Option Nat
  m_freezing : Bool
  m_freezeAborted : Bool
  m_muted : Bool
  m_startPosition : Int
  m_length : Int
  heapTop : Nat
deriving DecidableEq, Repr

/-- The collection is sorted by non-decreasing position. -/
def sortedByPos (l : List note) : Prop := l.Pairwise (fun a b => a.pos ≤ b.pos)

instance (l : List note) : Decidable (sortedByPos l) := by
  unfold sortedByPos; infer_instance

/-- Running maximum of the `length()` loop: `tMax<Sint32>( max_length, endPos() )`
over the notes, starting from `max_length`; the end position is a 32-bit value. -/
def maxEndPos (max_length : Int) : List note → Int
  | [] => max_length
  | n :: rest => maxEndPos (max max_length (wrap32 n.endPos)) rest

/-- `pattern::length`, in 32-bit arithmetic. -/
def pattern.length (p : pattern) : Int :=
  if p.m_patternType = BEAT_PATTERN then
    if p.m_steps.tmod DEFAULT_STEPS_PER_TACT = 0 then
      wrap32 (p.m_steps * BEATS_PER_TACT)
    else
      wrap32 (wrap32 (wrap32 (p.m_steps.tdiv DEFAULT_STEPS_PER_TACT + 1)
        * DEFAULT_STEPS_PER_TACT) * BEATS_PER_TACT)
  else
    let max_length := maxEndPos 0 p.m_notes
    if max_length.tmod 64 = 0 then
      max max_length 64
    else
      wrap32 (wrap32 (max (wrap32 (max_length.tdiv 64 + 1)) 1 * 64) + 0)

/-- `trackContentObject::changeLength`, as far as the state goes. -/
def pattern.changeLength (p : pattern) (l : Int) : pattern := { p with m_length := l }

/-- `pattern::update`: the displayed length follows `length()`. -/
def pattern.update (p : pattern) : pattern := p.changeLength p.length

/-- `pattern::setType`. -/
def pattern.setType (p : pattern) (_new_pattern_type : Int) : pattern :=
  if _new_pattern_type = BEAT_PATTERN ∨ _new_pattern_type = MELODY_PATTERN then
    { p with m_patternType := _new_pattern_type }
  else p

/-- `pattern::checkType`: the first note of positive length makes the pattern a
melody pattern; without one it is a beat pattern. -/
def pattern.checkType (p : pattern) : pattern :=
  if p.m_notes.any (fun n => decide (0 < n.length)) then p.setType MELODY_PATTERN
  else p.setType BEAT_PATTERN

/-- The `else` branch of `addNote`: walk from the front while the position is
smaller than that of the new note and insert there. -/
def insertBefore (new_note : note) : List note → List note
  | [] => [new_note]
  | x :: rest =>
    if x.pos < new_note.pos then x :: insertBefore new_note rest
    else new_note :: x :: rest

/-- The placement of `addNote` between `lock()` and `unlock()`. -/
def placeNote (l : List note) (new_note : note) : List note :=
  match l.getLast? with
  | none => l ++ [new_note]
  | some back => if back.pos ≤ new_note.pos then l ++ [new_note] else insertBefore new_note l

/-- `pattern::addNote`; the returned pointer is the address `p.heapTop`. -/
def pattern.addNote (env : environment) (p : pattern) (_new_note : note)
    (_quant_pos : Bool) : pattern :=
  let copied : note := { _new_note with addr := p.heapTop }
  let new_note : note :=
    if _quant_pos then { copied with pos := env.quantizePos copied.pos } else copied
  let p1 : pattern :=
    { p with m_notes := placeNote p.m_notes new_note, heapTop := p.heapTop + 1 }
  let p2 := p1.checkType
  let p3 := p2.update
  p3.changeLength p3.length

/-- The loop of `removeNote`: erase the first element whose address is the
pointer given. -/
def eraseNote (a : Nat) : List note → List note
  | [] => []
  | x :: rest => if x.addr = a then rest else x :: eraseNote a rest

/-- `pattern::removeNote`; the pointer `_note_to_del` is given by the note
it points to. -/
def pattern.removeNote (p : pattern) (_note_to_del : note) : pattern :=
  let p1 : pattern := { p with m_notes := eraseNote _note_to_del.addr p.m_notes }
  let p2 := p1.checkType
  let p3 := p2.update
  p3.changeLength p3.length

/-- `pattern::rearrangeNote`: remove the note and add a copy of it. -/
def pattern.rearrangeNote (env : environment) (p : pattern) (_note_to_proc : note)
    (_quant_pos : Bool) : pattern :=
  let copy_of_note := _note_to_proc
  (p.removeNote _note_to_proc).addNote env copy_of_note _quant_pos

/-- `pattern::clearNotes`. -/
def pattern.clearNotes (p : pattern) : pattern :=
  let p1 : pattern := { p with m_notes := [] }
  p1.checkType.update

/-- The test of the inner loops of `ensureBeatNotes` and `removeSteps`: a note
at the position of step `i` with non-positive length. -/
def isSlotNote (i : Int) (n : note) : Bool :=
  decide (n.pos = i * BEATS_PER_TACT) && decide (n.length ≤ 0)

/-- One round of the outer loop of `ensureBeatNotes`. -/
def pattern.ensureBeatNote (env : environment) (p : pattern) (i : Nat) : pattern :=
  let found := p.m_notes.any (isSlotNote i)
  if found = false then
    p.addNote env
      { addr := 0, pos := (i : Int) * BEATS_PER_TACT, length := 0,
        key := env.stepKey, volume := env.stepVolume }
      env.quantDefault
  else p

/-- `pattern::ensureBeatNotes`: `for( int i = 0; i < m_steps; ++i )`. -/
def pattern.ensureBeatNotes (env : environment) (p : pattern) : pattern :=
  (List.range p.m_steps.toNat).foldl (pattern.ensureBeatNote env) p

/-- `pattern::clear`. -/
def pattern.clear (env : environment) (p : pattern) : pattern :=
  (p.clearNotes).ensureBeatNotes env

/-- `pattern::unfreeze`. -/
def pattern.unfreeze (p : pattern) : pattern :=
  match p.m_frozenPattern with
  | some _ => ({ p with m_frozenPattern := none } : pattern).update
  | none => p

/-- `pattern::addSteps( int )`; `m_steps += _n` is a 32-bit addition. -/
def pattern.addSteps (env : environment) (p : pattern) (_n : Int) : pattern :=
  let p1 : pattern := { p with m_steps := wrap32 (p.m_steps + _n) }
  (p1.ensureBeatNotes env).update

/-- One round of the outer loop of `removeSteps`: the first slot note of step
`i`, if there is one, is removed. -/
def pattern.removeStepNote (p : pattern) (i : Int) : pattern :=
  match p.m_notes.find? (isSlotNote i) with
  | some n => p.removeNote n
  | none => p

/-- `pattern::removeSteps( int )`: `for( int i = m_steps - _n; i < m_steps; ++i )`,
with `m_steps - _n` and `m_steps -= _n` as 32-bit subtractions. -/
def pattern.removeSteps (p : pattern) (_n : Int) : pattern :=
  if _n < p.m_steps then
    let first := wrap32 (p.m_steps - _n)
    let p1 := (List.range (p.m_steps - first).toNat).foldl
      (fun q k => q.removeStepNote (first + (k : Int))) p
    let p2 : pattern := { p1 with m_steps := wrap32 (p1.m_steps - _n) }
    p2.update
  else p

/-- The element `v[i]` of a vector for an `int` index; `none` when the index is
outside the vector, where the source has undefined behaviour. -/
def vectorAt (v : List note) (i : Int) : Option note :=
  if 0 ≤ i then v[i.toNat]? else none

/-- The step toggle of `mousePressEvent`: a negative length becomes 0, any other
length becomes -64. -/
def toggledNote (n : note) : note :=
  if n.length < 0 then n.setLength 0 else n.setLength (-64)

/-- `pattern::mousePressEvent`.  The event and the widget are given by what the
code reads from them: whether the left button was pressed, `pixelsPerTact()`,
whether the pointer is in the row of step buttons, and the value of `step`
computed from the horizontal coordinate.  The other two branches (dragging the
frozen buffer, the handler of the base class) do not touch the members
modelled here.  The result is `none` where `m_notes[step]` is outside the
vector. -/
def pattern.mousePressEvent (p : pattern) (leftButton : Bool) (pixelsPerTact : Int)
    (inStepRow : Bool) (step : Int) : Option pattern :=
  if leftButton = true ∧ p.m_patternType = BEAT_PATTERN ∧
      (192 ≤ pixelsPerTact ∨ p.m_steps ≠ DEFAULT_STEPS_PER_TACT) ∧ inStepRow = true then
    if p.m_steps ≤ step then some p
    else
      match vectorAt p.m_notes step with
      | none => none
      | some n =>
        some ({ p with m_notes := p.m_notes.set step.toNat (toggledNote n) } : pattern).update
  else some p

/-- The volume step of `wheelEvent` on the note of a step; `vol` is a `Uint8`. -/
def wheeledNote (n : note) (delta : Int) : note :=
  let vol : Int := (n.volume : Int) % 256
  if n.length = 0 ∧ 0 < delta then
    (n.setLength (-64)).setVolume 5
  else if 0 < delta then
    if vol < 95 then n.setVolume (vol + 5) else n
  else
    if 5 < vol then n.setVolume (vol - 5) else n.setLength 0

/-- `pattern::wheelEvent`, with the event and the widget given as for
`mousePressEvent`, and `delta` the wheel delta. -/
def pattern.wheelEvent (p : pattern) (pixelsPerTact : Int) (inStepRow : Bool)
    (step : Int) (delta : Int) : Option pattern :=
  if p.m_patternType = BEAT_PATTERN ∧
      (192 ≤ pixelsPerTact ∨ p.m_steps ≠ DEFAULT_STEPS_PER_TACT) ∧ inStepRow = true then
    if p.m_steps ≤ step then some p
    else
      match vectorAt p.m_notes step with
      | none => none
      | some n =>
        some ({ p with m_notes := p.m_notes.set step.toNat (wheeledNote n delta) } : pattern).update
  else some p

/-- `pattern::empty`. -/
def pattern.empty (p : pattern) : Bool :=
  p.m_notes.all (fun n => decide (n.length = 0))

/-! ## Sequences of mutations of the note collection -/

/-- One of the three mutations `addNote`, `removeNote`, `rearrangeNote`. -/
inductive noteOp where
  | add (new_note : note) (quant_pos : Bool)
  | remove (note_to_del : note)
  | rearrange (note_to_proc : note) (quant_pos : Bool)

/-- The pattern after one mutation. -/
def applyNoteOp (env : environment) (p : pattern) : noteOp → pattern
  | .add n q => p.addNote env n q
  | .remove x => p.removeNote x
  | .rearrange x q => p.rearrangeNote env x q

/-- The pattern after a sequence of mutations, first to last; each mutation comes
with the environment it runs in (the quantization of the piano roll may change
between two of them). -/
def runNoteOps (p : pattern) (ops : List (environment × noteOp)) : pattern :=
  ops.foldl (fun q eo => applyNoteOp eo.1 q eo.2) p

/-- The note that `addNote` stores: the copy at the fresh address, its position
quantized when asked for. -/
def storedNote (env : environment) (p : pattern) (_new_note : note) (_quant_pos : Bool) : note :=
  if _quant_pos then
    { _new_note with addr := p.heapTop, pos := env.quantizePos _new_note.pos }
  else { _new_note with addr := p.heapTop }

/-- The type of the pattern agrees with its notes: melody exactly when some note
has positive length, beat exactly when none has. -/
def typeFollowsNotes (p : pattern) : Prop :=
  (p.m_patternType = MELODY_PATTERN ↔ ∃ n ∈ p.m_notes, 0 < n.length) ∧
  (p.m_patternType = BEAT_PATTERN ↔ ∀ n ∈ p.m_notes, n.length ≤ 0)

/-- An environment in which `addNote` quantizes by default, to the nearest
multiple of 8 (halves rounded up). -/
def coarseEnv : environment :=
  { quantDefault := true, quantizePos := fun x => (x + 4) / 8 * 8, stepKey := 57, stepVolume := 100 }

/-- An environment in which `addNote` does not quantize by default. -/
def plainEnv : environment :=
  { quantDefault := false, quantizePos := fun x => (x + 4) / 8 * 8, stepKey := 57, stepVolume := 100 }

/-- A pattern without notes: beat pattern, 16 steps, not frozen, not muted. -/
def emptyPattern : pattern :=
  { m_notes := [], m_patternType := BEAT_PATTERN, m_name := "", m_steps := 16,
    m_frozenPattern := none, m_freezing := false, m_freezeAborted := false,
    m_muted := false, m_startPosition := 0, m_length := 64, heapTop := 0 }

/-- A melody pattern with two notes, ending at 48 and at 100. -/
def melodyDemo : pattern :=
  { emptyPattern with
    m_patternType := MELODY_PATTERN
    m_notes := [⟨0, 0, 48, 57, 100⟩, ⟨1, 68, 32, 60, 100⟩]
    heapTop := 2 }

/-- A beat pattern with 16 steps in which step 0 is active and step 1 is not;
the notes are the notes of its first two steps. -/
def beatDemo : pattern :=
  { emptyPattern with
    m_notes := [⟨0, 0, -64, 57, 100⟩, ⟨1, 4, 0, 57, 0⟩]
    heapTop := 2 }

/-- The note that `ensureBeatNotes` synthesizes is stored at the exact position
of its step: either `addNote` does not quantize by default, or the quantization
of the piano roll leaves the step positions where they are. -/
def exactSlots (env : environment) : Prop :=
  env.quantDefault = false ∨
    ∀ i : Nat, env.quantizePos ((i : Int) * BEATS_PER_TACT) = (i : Int) * BEATS_PER_TACT

/-- The notes of `l` are, in order, slot notes of the steps `start`, `start + 1`, ...:
each at the position of its step and of non-positive length. -/
def slotsFrom : Nat → List note → Prop
  | _, [] => True
  | start, x :: rest =>
    x.pos = (start : Int) * BEATS_PER_TACT ∧ x.length ≤ 0 ∧ slotsFrom (start + 1) rest

/-- The step grid is in place: the number of steps is a positive `int`, there is
one note per step, the note of step `i` at index `i`; the notes are distinct heap
objects below the allocation pointer. -/
def stepGrid (p : pattern) : Prop :=
  (1 ≤ p.m_steps ∧ p.m_steps ≤ 2147483647) ∧ (p.m_notes.length : Int) = p.m_steps ∧
  slotsFrom 0 p.m_notes ∧
  (p.m_notes.map note.addr).Nodup ∧ ∀ n ∈ p.m_notes, n.addr < p.heapTop

/-- The operations on the step grid: adding and removing steps, the step toggle
(a mouse press) and the step volume (a wheel turn). -/
inductive stepOp where
  | add (n : Int)
  | remove (n : Int)
  | press (leftButton : Bool) (pixelsPerTact : Int) (inStepRow : Bool) (step : Int)
  | wheel (pixelsPerTact : Int) (inStepRow : Bool) (step : Int) (delta : Int)

/-- The arguments allowed to an operation in state `p`: at least one step is added
or removed, the number of steps stays an `int`, and a step index lies in
`[0, m_steps)`. -/
def stepOp.allowed (p : pattern) : stepOp → Prop
  | .add n => 1 ≤ n ∧ p.m_steps + n ≤ 2147483647
  | .remove n => 1 ≤ n
  | .press _ _ _ step => 0 ≤ step ∧ step < p.m_steps
  | .wheel _ _ step _ => 0 ≤ step ∧ step < p.m_steps

/-- The pattern after an operation on the step grid. -/
def applyStepOp (env : environment) (p : pattern) : stepOp → Option pattern
  | .add n => some (p.addSteps env n)
  | .remove n => some (p.removeSteps n)
  | .press lb ppt row step => p.mousePressEvent lb ppt row step
  | .wheel ppt row step delta => p.wheelEvent ppt row step delta

/-- The states reached from a cleared pattern with at least one step by allowed
operations on the step grid, each run in an environment that satisfies `ok` (the
quantization of the piano roll may change between two of them). -/
inductive reachable (ok : environment → Prop) : pattern → Prop where
  | cleared (env : environment) (henv : ok env) (p0 : pattern)
      (h : 1 ≤ p0.m_steps ∧ p0.m_steps ≤ 2147483647) : reachable ok (p0.clear env)
  | step (env : environment) (henv : ok env) (p q : pattern) (op : stepOp)
      (hp : reachable ok p) (ha : op.allowed p)
      (hq : applyStepOp env p op = some q) : reachable ok q

/-- The notes are `len` slot notes, of the steps `0` to `len - 1` in order, distinct
heap objects below the allocation pointer. -/
def gridNotes (p : pattern) (len : Nat) : Prop :=
  p.m_notes.length = len ∧ slotsFrom 0 p.m_notes ∧
  (p.m_notes.map note.addr).Nodup ∧ ∀ n ∈ p.m_notes, n.addr < p.heapTop

/-- A demo state of the step grid: cleared, two steps added, one removed. -/
def gridDemo : pattern :=
  ((emptyPattern.clear plainEnv).addSteps plainEnv 2).removeSteps 1

/-- Modelled from the spec: a child node of the persisted pattern element.  The
note schema (`note::saveState` / `note::restoreState`, note.cpp) is not among the
sources; a note element carries position, length, key and volume.  `isElement`
and `metadata` are what `loadSettings` tests on a child. -/
structure domNode where
  isElement : Bool
  metadata : Int
  pos : Int
  length : Int
  key : Int
  volume : Nat
deriving DecidableEq, Repr

/-- The persisted pattern element: the attributes written by `saveSettings` and
the child nodes. -/
structure patternRecord where
  type : Int
  name : String
  pos : Int
  len : Int
  muted : Int
  steps : Int
  frozen : Int
  children : List domNode
deriving DecidableEq, Repr

/-- Modelled from the spec: `note::saveState`, which appends a child element with
the fields of the note and no `metadata` attribute. -/
def note.saveState (n : note) : domNode :=
  { isElement := true, metadata := 0, pos := n.pos, length := n.length, key := n.key,
    volume := n.volume }

/-- Modelled from the spec: `new note` followed by `note::restoreState`, which reads
the fields of the note back; `addr` is the address of the new object. -/
def note.restoreState (addr : Nat) (e : domNode) : note :=
  { addr := addr, pos := e.pos, length := e.length, key := e.key, volume := e.volume }

/-- `pattern::saveSettings`; `parentIsClipboard` tells whether the parent node of
the element is named `clipboard` or `dnddata`. -/
def pattern.saveSettings (p : pattern) (parentIsClipboard : Bool) : patternRecord :=
  { type := p.m_patternType
    name := p.m_name
    pos := if parentIsClipboard then -1 else p.m_startPosition
    len := p.length
    muted := if p.m_muted then 1 else 0
    steps := p.m_steps
    frozen := if p.m_frozenPattern.isSome then 1 else 0
    children := (p.m_notes.filter (fun n => decide (n.length ≠ 0))).map note.saveState }

/-- Modelled from the spec: `trackContentObject::movePosition`. -/
def pattern.movePosition (p : pattern) (pos : Int) : pattern := { p with m_startPosition := pos }

/-- Modelled from the spec: `trackContentObject::toggleMute`. -/
def pattern.toggleMute (p : pattern) : pattern := { p with m_muted := !p.m_muted }

/-- One round of the loop of `loadSettings` over the child nodes. -/
def pattern.loadNode (p : pattern) (node : domNode) : pattern :=
  if node.isElement = true ∧ node.metadata = 0 then
    { p with m_notes := p.m_notes ++ [note.restoreState p.heapTop node],
             heapTop := p.heapTop + 1 }
  else p

/-- `pattern::loadSettings`. -/
def pattern.loadSettings (env : environment) (p : pattern) (_this : patternRecord) : pattern :=
  let p0 := p.unfreeze
  let p1 : pattern := { p0 with m_patternType := _this.type, m_name := _this.name }
  let p2 := if 0 ≤ _this.pos then p1.movePosition _this.pos else p1
  let p3 := p2.changeLength _this.len
  let p4 := if _this.muted ≠ (if p3.m_muted then 1 else 0) then p3.toggleMute else p3
  let p5 := p4.clearNotes
  let p6 := _this.children.foldl pattern.loadNode p5
  let p7 : pattern :=
    { p6 with m_steps := if _this.steps = 0 then DEFAULT_STEPS_PER_TACT else _this.steps }
  let p8 := p7.ensureBeatNotes env
  p8.checkType.update

/-- What a note is apart from its address: position, length, key and volume. -/
def noteData (n : note) : Int × Int × Int × Nat := (n.pos, n.length, n.key, n.volume)

/-- The data of the notes of non-zero length, in the order of the collection. -/
def nonZeroData (l : List note) : List (Int × Int × Int × Nat) :=
  (l.filter (fun n => decide (n.length ≠ 0))).map noteData

/-! ### The freeze thread

`patternFreezeThread::run` is sequential code that talks to the mixer, the song
editor and the status dialog, and that reads the flag `m_freezeAborted`, which
`abortFreeze()` sets from the thread of the dialog.  The embedding runs the code
against a `freezeWorld` that answers what the code reads: the position of the
transport after each buffer, whether play handles are left, and the value of the
flag at each of its reads, counted from the reset at the start of `run`.  What the
code does to its collaborators is recorded as a list of events.  The two loops
need not end, so they take fuel. -/

/-- What `run` does to the mixer, the recorder, the song editor and the dialog. -/
inductive freezeEvent where
  | setAudioDevice
  | processNextBuffer
  | setProgress (value : Int)
  | stop
  | createSampleBuffer
  | restoreAudioDevice
deriving DecidableEq, Repr

/-- Modelled from the spec: the collaborators of the freeze thread (mixer, song
editor, recorder, dialog thread), which are not among the sources.
`posAfter n` is the position of the transport after buffer `n + 1`,
`playHandles n` the answer of `hasPlayHandles()` after `n` buffers,
`freezeAborted k` the value of `m_freezeAborted` at read number `k` of `run`,
`recorder` the new `audioSampleRecorder` and `sampleBuffer` the buffer that
`createSampleBuffer` makes. -/
structure freezeWorld where
  posAfter : Nat → Int
  playHandles : Nat → Bool
  freezeAborted : Nat → Bool
  recorder : Nat
  sampleBuffer : Nat

/-- The position `ppp` after `n` buffers; `run` sets it to zero before the first. -/
def freezeWorld.playPos (w : freezeWorld) : Nat → Int
  | 0 => 0
  | n + 1 => w.posAfter n

/-- Modelled from the spec: the audio devices of the mixer, the active one and the
one kept for restoration. -/
structure mixerState where
  audioDev : Nat
  oldAudioDev : Nat
deriving DecidableEq, Repr

/-- Modelled from the spec: `mixer::setAudioDevice`, which installs a device in place
of the active one and keeps the active one for restoration. -/
def mixerState.setAudioDevice (m : mixerState) (dev : Nat) : mixerState :=
  { audioDev := dev, oldAudioDev := m.audioDev }

/-- Modelled from the spec: `mixer::restoreAudioDevice`, which makes the kept device
the active one again. -/
def mixerState.restoreAudioDevice (m : mixerState) : mixerState :=
  { m with audioDev := m.oldAudioDev }

/-- The progress of the two loops: buffers processed, reads of the abort flag, and
the events so far. -/
structure loopState where
  buffers : Nat
  reads : Nat
  trace : List freezeEvent
deriving DecidableEq, Repr

/-- The value `ppp * 100 / m_pattern->length()` after `n` buffers. -/
def progressAfter (w : freezeWorld) (len : Int) (n : Nat) : Int :=
  (w.playPos n * 100).tdiv len

/-- The loop `while( ppp < m_pattern->length() && m_pattern->m_freezeAborted == FALSE )`
of `run`; the flag is read only when the first test holds. -/
def renderLoop (w : freezeWorld) (len : Int) : Nat → loopState → Option loopState
  | 0, _ => none
  | fuel + 1, s =>
    if w.playPos s.buffers < len then
      if w.freezeAborted s.reads = false then
        renderLoop w len fuel
          { buffers := s.buffers + 1, reads := s.reads + 1,
            trace := s.trace ++ [freezeEvent.processNextBuffer,
              freezeEvent.setProgress (progressAfter w len (s.buffers + 1))] }
      else some { s with reads := s.reads + 1 }
    else some s

/-- The loop `while( hasPlayHandles() && m_pattern->m_freezeAborted == FALSE )` of
`run`, which renders the tails. -/
def tailLoop (w : freezeWorld) : Nat → loopState → Option loopState
  | 0, _ => none
  | fuel + 1, s =>
    if w.playHandles s.buffers = true then
      if w.freezeAborted s.reads = false then
        tailLoop w fuel
          { buffers := s.buffers + 1, reads := s.reads + 1,
            trace := s.trace ++ [freezeEvent.processNextBuffer] }
      else some { s with reads := s.reads + 1 }
    else some s

/-- The outcome of a run of the freeze thread: the pattern, the mixer, the events in
order, the buffers of the render loop, all buffers, and the reads of the flag. -/
structure freezeRun where
  pat : pattern
  mixer : mixerState
  trace : List freezeEvent
  rendered : Nat
  buffers : Nat
  reads : Nat
deriving DecidableEq, Repr

/-- `patternFreezeThread::run`; `none` when the fuel does not suffice for the
loops to end. -/
def patternFreezeThread.run (w : freezeWorld) (p : pattern) (m : mixerState)
    (fuel : Nat) : Option freezeRun :=
  let m1 := m.setAudioDevice w.recorder
  let p1 : pattern := { p with m_freezeAborted := false, m_freezing := true }
  match renderLoop w p1.length fuel
      { buffers := 0, reads := 0, trace := [freezeEvent.setAudioDevice] } with
  | none => none
  | some s1 =>
    match tailLoop w fuel { s1 with trace := s1.trace ++ [freezeEvent.setProgress 100] } with
    | none => none
    | some s2 =>
      let aborted := w.freezeAborted s2.reads
      let p2 : pattern := { p1 with m_freezing := false, m_freezeAborted := aborted }
      let t2 := s2.trace ++ [freezeEvent.stop]
      let p3 : pattern :=
        if aborted = false then { p2 with m_frozenPattern := some w.sampleBuffer } else p2
      let t3 := if aborted = false then t2 ++ [freezeEvent.createSampleBuffer] else t2
      some
        { pat := p3
          mixer := m1.restoreAudioDevice
          trace := t3 ++ [freezeEvent.restoreAudioDevice, freezeEvent.setProgress (-1)]
          rendered := s1.buffers
          buffers := s2.buffers
          reads := s2.reads + 1 }

/-- `pattern::freeze`: refused while the song editor plays, asked back when the
track or the pattern is muted (`goOn` is the answer), an earlier result dropped,
then the freeze thread, here run to its end. -/
def pattern.freeze (w : freezeWorld) (p : pattern) (m : mixerState)
    (playing trackMuted goOn : Bool) (fuel : Nat) : Option freezeRun :=
  let idle : freezeRun :=
    { pat := p, mixer := m, trace := [], rendered := 0, buffers := 0, reads := 0 }
  if playing = true then some idle
  else if (trackMuted = true ∨ p.m_muted = true) ∧ goOn = false then some idle
  else
    let p1 := if p.m_frozenPattern ≠ none then p.unfreeze else p
    patternFreezeThread.run w p1 m fuel

/-- The values passed to `setProgress`, in order. -/
def progressValues : List freezeEvent → List Int
  | [] => []
  | freezeEvent.setProgress v :: rest => v :: progressValues rest
  | _ :: rest => progressValues rest

/-- The events that the two loops issue. -/
def loopEvent : freezeEvent → Bool
  | freezeEvent.processNextBuffer => true
  | freezeEvent.setProgress _ => true
  | _ => false

/-- A world in which the dialog aborts after two buffers: the flag is set from its
third read on, the transport advances by 16 per buffer, and play handles never end. -/
def abortWorld : freezeWorld :=
  { posAfter := fun n => 16 * ((n : Int) + 1), playHandles := fun _ => true,
    freezeAborted := fun k => decide (2 ≤ k), recorder := 7, sampleBuffer := 9 }

/-- A mixer with device 1 active. -/
def liveMixer : mixerState := { audioDev := 1, oldAudioDev := 0 }

/-- A sorted collection of two notes, at positions 4 and 8. -/
def tieDemo : pattern :=
  { emptyPattern with
    m_notes := [⟨0, 4, 0, 57, 100⟩, ⟨1, 8, 0, 57, 100⟩]
    heapTop := 2 }

/-- The child nodes of a record from which `loadSettings` makes notes: the elements
whose attribute `metadata` is zero or missing. -/
def patternRecord.noteNodes (r : patternRecord) : List domNode :=
  r.children.filter (fun c => c.isElement && decide (c.metadata = 0))

/-- A record with two steps whose two note elements are at positions 8 and 0, in
this order. -/
def unsortedRecord : patternRecord :=
  { type := 1, name := "", pos := 0, len := 64, muted := 0, steps := 2, frozen := 0,
    children := [⟨true, 0, 8, 4, 57, 100⟩, ⟨true, 0, 0, 4, 57, 100⟩] }

/-- A beat pattern with 600000000 steps and no notes. -/
def wideBeat : pattern := { emptyPattern with m_steps := 600000000 }

/-- A melody pattern whose one note, at position 2147483600 with length 40, ends
at 2147483640. -/
def wideMelody : pattern :=
  { emptyPattern with
    m_patternType := MELODY_PATTERN
    m_notes := [⟨0, 2147483600, 40, 57, 100⟩]
    heapTop := 1 }

/-- A beat pattern with 2147483647 steps and no notes. -/
def fullSteps : pattern := { emptyPattern with m_steps := 2147483647 }

/-- A pattern with three steps, cleared while `addNote` quantizes to multiples of 8. -/
def coarseGrid : pattern :=
  ({ emptyPattern with m_steps := 3 } : pattern).clear coarseEnv

/-- A beat pattern with 536870897 steps and no notes. -/
def edgeBeat : pattern := { emptyPattern with m_steps := 536870897 }

/-- A melody pattern whose one note, at position -2147483648 with length -1, ends
below the least 32-bit value. -/
def lowMelody : pattern :=
  { emptyPattern with
    m_patternType := MELODY_PATTERN
    m_notes := [⟨0, -2147483648, -1, 57, 100⟩]
    heapTop := 1 }

/-! ## Projections of the small steps -/

@[simp] theorem changeLength_notes (p : pattern) (l : Int) :
    (p.changeLength l).m_notes = p.m_notes := rfl

@[simp] theorem changeLength_type (p : pattern) (l : Int) :
    (p.changeLength l).m_patternType = p.m_patternType := rfl

@[simp] theorem changeLength_steps (p : pattern) (l : Int) :
    (p.changeLength l).m_steps = p.m_steps := rfl

@[simp] theorem changeLength_heapTop (p : pattern) (l : Int) :
    (p.changeLength l).heapTop = p.heapTop := rfl

@[simp] theorem update_notes (p : pattern) : p.update.m_notes = p.m_notes := rfl

@[simp] theorem update_type (p : pattern) : p.update.m_patternType = p.m_patternType := rfl

@[simp] theorem update_steps (p : pattern) : p.update.m_steps = p.m_steps := rfl

@[simp] theorem update_heapTop (p : pattern) : p.update.heapTop = p.heapTop := rfl

@[simp] theorem setType_notes (p : pattern) (t : Int) : (p.setType t).m_notes = p.m_notes := by
  unfold pattern.setType; split <;> rfl

@[simp] theorem setType_steps (p : pattern) (t : Int) : (p.setType t).m_steps = p.m_steps := by
  unfold pattern.setType; split <;> rfl

@[simp] theorem setType_heapTop (p : pattern) (t : Int) : (p.setType t).heapTop = p.heapTop := by
  unfold pattern.setType; split <;> rfl

@[simp] theorem checkType_notes (p : pattern) : p.checkType.m_notes = p.m_notes := by
  unfold pattern.checkType; split <;> simp

@[simp] theorem checkType_steps (p : pattern) : p.checkType.m_steps = p.m_steps := by
  unfold pattern.checkType; split <;> simp

@[simp] theorem checkType_heapTop (p : pattern) : p.checkType.heapTop = p.heapTop := by
  unfold pattern.checkType; split <;> simp

theorem checkType_type (p : pattern) :
    p.checkType.m_patternType =
      if p.m_notes.any (fun n => decide (0 < n.length)) then MELODY_PATTERN else BEAT_PATTERN := by
  unfold pattern.checkType pattern.setType
  split <;> simp

theorem addNote_notes (env : environment) (p : pattern) (n : note) (q : Bool) :
    (p.addNote env n q).m_notes = placeNote p.m_notes (storedNote env p n q) := by
  unfold pattern.addNote storedNote
  cases q <;> simp

@[simp] theorem addNote_steps (env : environment) (p : pattern) (n : note) (q : Bool) :
    (p.addNote env n q).m_steps = p.m_steps := by
  unfold pattern.addNote; simp

@[simp] theorem addNote_heapTop (env : environment) (p : pattern) (n : note) (q : Bool) :
    (p.addNote env n q).heapTop = p.heapTop + 1 := by
  unfold pattern.addNote; simp

theorem addNote_type (env : environment) (p : pattern) (n : note) (q : Bool) :
    (p.addNote env n q).m_patternType =
      if (p.addNote env n q).m_notes.any (fun n => decide (0 < n.length)) then MELODY_PATTERN
      else BEAT_PATTERN := by
  rw [addNote_notes]
  unfold pattern.addNote storedNote
  cases q <;> simp [checkType_type]

theorem removeNote_notes (p : pattern) (x : note) :
    (p.removeNote x).m_notes = eraseNote x.addr p.m_notes := by
  unfold pattern.removeNote; simp

@[simp] theorem removeNote_steps (p : pattern) (x : note) :
    (p.removeNote x).m_steps = p.m_steps := by
  unfold pattern.removeNote; simp

@[simp] theorem removeNote_heapTop (p : pattern) (x : note) :
    (p.removeNote x).heapTop = p.heapTop := by
  unfold pattern.removeNote; simp

theorem removeNote_type (p : pattern) (x : note) :
    (p.removeNote x).m_patternType =
      if (p.removeNote x).m_notes.any (fun n => decide (0 < n.length)) then MELODY_PATTERN
      else BEAT_PATTERN := by
  rw [removeNote_notes]
  unfold pattern.removeNote
  simp [checkType_type]

@[simp] theorem clearNotes_notes (p : pattern) : p.clearNotes.m_notes = [] := by
  unfold pattern.clearNotes; simp

@[simp] theorem clearNotes_steps (p : pattern) : p.clearNotes.m_steps = p.m_steps := by
  unfold pattern.clearNotes; simp

@[simp] theorem clearNotes_heapTop (p : pattern) : p.clearNotes.heapTop = p.heapTop := by
  unfold pattern.clearNotes; simp

theorem clearNotes_type (p : pattern) : p.clearNotes.m_patternType = BEAT_PATTERN := by
  unfold pattern.clearNotes; simp [checkType_type]

/-! ## Sortedness of the collection -/

theorem mem_insertBefore (n y : note) (l : List note) :
    y ∈ insertBefore n l ↔ y = n ∨ y ∈ l := by
  induction l with
  | nil => simp [insertBefore]
  | cons x rest ih =>
    unfold insertBefore
    split
    · simp only [List.mem_cons, ih]; tauto
    · simp only [List.mem_cons]

theorem sortedByPos_insertBefore (n : note) (l : List note) (h : sortedByPos l) :
    sortedByPos (insertBefore n l) := by
  induction l with
  | nil => simp [insertBefore, sortedByPos]
  | cons x rest ih =>
    unfold sortedByPos at h ih ⊢
    rw [List.pairwise_cons] at h
    unfold insertBefore
    split
    · rename_i hlt
      rw [List.pairwise_cons]
      refine ⟨?_, ih h.2⟩
      intro y hy
      rcases (mem_insertBefore n y rest).1 hy with rfl | hy
      · exact le_of_lt hlt
      · exact h.1 y hy
    · rename_i hge
      have hnx : n.pos ≤ x.pos := not_lt.1 hge
      rw [List.pairwise_cons, List.pairwise_cons]
      refine ⟨?_, h⟩
      intro y hy
      rcases List.mem_cons.1 hy with rfl | hy
      · exact hnx
      · exact le_trans hnx (h.1 y hy)

theorem le_back_of_sorted (l : List note) (back : note) (h : sortedByPos l)
    (hb : l.getLast? = some back) : ∀ a ∈ l, a.pos ≤ back.pos := by
  induction l with
  | nil => simp
  | cons x rest ih =>
    unfold sortedByPos at h ih
    rw [List.pairwise_cons] at h
    intro a ha
    cases rest with
    | nil =>
      simp at hb ha
      subst hb; subst ha; exact le_refl _
    | cons y ys =>
      have hb2 : (y :: ys).getLast? = some back := by
        simpa [List.getLast?_cons_cons] using hb
      have hmem : back ∈ y :: ys := List.mem_of_getLast?_eq_some hb2
      rcases List.mem_cons.1 ha with rfl | ha
      · exact h.1 back hmem
      · exact ih h.2 hb2 a ha

theorem sortedByPos_placeNote (l : List note) (n : note) (h : sortedByPos l) :
    sortedByPos (placeNote l n) := by
  unfold placeNote
  split
  · rename_i hnone
    have hl : l = [] := List.getLast?_eq_none_iff.1 hnone
    subst hl
    simp [sortedByPos]
  · rename_i back hb
    split
    · rename_i hle
      unfold sortedByPos
      rw [List.pairwise_append]
      refine ⟨h, by simp, ?_⟩
      intro a ha b hb2
      rw [List.mem_singleton] at hb2
      subst hb2
      exact le_trans (le_back_of_sorted l back h hb a ha) hle
    · exact sortedByPos_insertBefore n l h

theorem eraseNote_sublist (a : Nat) (l : List note) : (eraseNote a l).Sublist l := by
  induction l with
  | nil => exact List.Sublist.refl _
  | cons x rest ih =>
    unfold eraseNote
    split
    · exact List.sublist_cons_self x rest
    · exact ih.cons₂ x

theorem sortedByPos_eraseNote (a : Nat) (l : List note) (h : sortedByPos l) :
    sortedByPos (eraseNote a l) :=
  List.Pairwise.sublist (eraseNote_sublist a l) h

theorem eraseNote_edited (l1 l2 : List note) (x : note)
    (hfresh : ∀ y ∈ l1, y.addr ≠ x.addr) :
    eraseNote x.addr (l1 ++ x :: l2) = l1 ++ l2 := by
  induction l1 with
  | nil => simp [eraseNote]
  | cons y ys ih =>
    have hy : y.addr ≠ x.addr := hfresh y (List.mem_cons_self y ys)
    have hys : ∀ z ∈ ys, z.addr ≠ x.addr := fun z hz => hfresh z (List.mem_cons_of_mem y hz)
    simp [eraseNote, hy, ih hys]

theorem sortedByPos_without (l1 l2 : List note) (x : note)
    (h : sortedByPos (l1 ++ x :: l2)) : sortedByPos (l1 ++ l2) := by
  refine List.Pairwise.sublist ?_ h
  exact List.Sublist.append (List.Sublist.refl l1) (List.sublist_cons_self x l2)

theorem sortedByPos_addNote (env : environment) (p : pattern) (n : note) (q : Bool)
    (h : sortedByPos p.m_notes) : sortedByPos (p.addNote env n q).m_notes := by
  rw [addNote_notes]; exact sortedByPos_placeNote _ _ h

theorem sortedByPos_removeNote (p : pattern) (x : note)
    (h : sortedByPos p.m_notes) : sortedByPos (p.removeNote x).m_notes := by
  rw [removeNote_notes]; exact sortedByPos_eraseNote _ _ h

theorem sortedByPos_rearrangeNote (env : environment) (p : pattern) (x : note) (q : Bool)
    (h : sortedByPos p.m_notes) : sortedByPos (p.rearrangeNote env x q).m_notes := by
  unfold pattern.rearrangeNote
  exact sortedByPos_addNote env _ x q (sortedByPos_removeNote p x h)

theorem sortedByPos_applyNoteOp (env : environment) (p : pattern) (op : noteOp)
    (h : sortedByPos p.m_notes) : sortedByPos (applyNoteOp env p op).m_notes := by
  cases op with
  | add n q => exact sortedByPos_addNote env p n q h
  | remove x => exact sortedByPos_removeNote p x h
  | rearrange x q => exact sortedByPos_rearrangeNote env p x q h

theorem sortedByPos_runNoteOps (ops : List (environment × noteOp)) (p : pattern)
    (h : sortedByPos p.m_notes) : sortedByPos (runNoteOps p ops).m_notes := by
  induction ops generalizing p with
  | nil => exact h
  | cons eo rest ih =>
    exact ih (applyNoteOp eo.1 p eo.2) (sortedByPos_applyNoteOp eo.1 p eo.2 h)

/-- C1: `addNote` (with or without quantization of the position), `removeNote`
and `rearrangeNote` keep a collection sorted by non-decreasing position; every
sequence of the three operations from the empty collection ends in a sorted
collection; and when the collection is sorted save for one note whose position
was changed in place, `rearrangeNote` of that note gives a sorted collection. -/
theorem note_mutations_keep_sorted (env : environment) :
    (∀ (p : pattern) (n : note) (q : Bool),
        sortedByPos p.m_notes → sortedByPos (p.addNote env n q).m_notes) ∧
    (∀ (p : pattern) (x : note),
        sortedByPos p.m_notes → sortedByPos (p.removeNote x).m_notes) ∧
    (∀ (p : pattern) (x : note) (q : Bool),
        sortedByPos p.m_notes → sortedByPos (p.rearrangeNote env x q).m_notes) ∧
    (∀ (p : pattern) (ops : List (environment × noteOp)),
        p.m_notes = [] → sortedByPos (runNoteOps p ops).m_notes) ∧
    (∀ (p : pattern) (l1 l2 : List note) (x : note) (newPos : Int) (q : Bool),
        sortedByPos (l1 ++ x :: l2) → (∀ y ∈ l1, y.addr ≠ x.addr) →
        p.m_notes = l1 ++ { x with pos := newPos } :: l2 →
        sortedByPos (p.rearrangeNote env { x with pos := newPos } q).m_notes) := by
  refine ⟨sortedByPos_addNote env, sortedByPos_removeNote, sortedByPos_rearrangeNote env, ?_, ?_⟩
  · intro p ops hp
    apply sortedByPos_runNoteOps
    rw [hp]; simp [sortedByPos]
  · intro p l1 l2 x newPos q hs hfresh hp
    unfold pattern.rearrangeNote
    apply sortedByPos_addNote
    rw [removeNote_notes, hp]
    have := eraseNote_edited l1 l2 { x with pos := newPos } hfresh
    simp only at this
    rw [this]
    exact sortedByPos_without l1 l2 x hs

/-- An instance of C1: in the collection with positions 0, 70, 8 (the middle note was
moved in place from 4 to 70) `rearrangeNote` of the moved note restores the order. -/
theorem note_mutations_keep_sorted_witness :
    sortedByPos
      (({ emptyPattern with
          m_notes := [⟨0, 0, 0, 57, 100⟩, ⟨1, 70, 0, 57, 100⟩, ⟨2, 8, 0, 57, 100⟩] } : pattern
        ).rearrangeNote plainEnv ⟨1, 70, 0, 57, 100⟩ false).m_notes :=
  (note_mutations_keep_sorted plainEnv).2.2.2.2 _ [⟨0, 0, 0, 57, 100⟩] [⟨2, 8, 0, 57, 100⟩]
    ⟨1, 4, 0, 57, 100⟩ 70 false (by decide) (by decide) rfl

/-! ## Beat or melody -/

theorem any_positive_iff (l : List note) :
    l.any (fun n => decide (0 < n.length)) = true ↔ ∃ n ∈ l, 0 < n.length := by
  simp [List.any_eq_true]

theorem typeFollowsNotes_of_type (p : pattern)
    (h : p.m_patternType =
      if p.m_notes.any (fun n => decide (0 < n.length)) then MELODY_PATTERN else BEAT_PATTERN) :
    typeFollowsNotes p := by
  unfold typeFollowsNotes
  rw [h]
  by_cases hany : p.m_notes.any (fun n => decide (0 < n.length)) = true
  · have hex := (any_positive_iff p.m_notes).1 hany
    rw [if_pos hany]
    refine ⟨⟨fun _ => hex, fun _ => rfl⟩, ⟨fun hc => absurd hc (by decide), fun hall => ?_⟩⟩
    obtain ⟨n, hn, hpos⟩ := hex
    exact absurd (hall n hn) (not_le.2 hpos)
  · have hnex : ¬ ∃ n ∈ p.m_notes, 0 < n.length := fun hex => hany ((any_positive_iff _).2 hex)
    rw [if_neg hany]
    refine ⟨⟨fun hc => absurd hc (by decide), fun hex => absurd hex hnex⟩,
      ⟨fun _ n hn => ?_, fun _ => rfl⟩⟩
    exact not_lt.1 (fun hpos => hnex ⟨n, hn, hpos⟩)

/-- C2: right after `checkType` the pattern is a melody pattern exactly when some
note of the collection has positive length and a beat pattern otherwise (so a beat
pattern for the empty collection and for notes of length zero or less only); the
same holds after `addNote`, `removeNote` and `clearNotes`, which call `checkType`
after changing the collection. -/
theorem checkType_follows_notes (env : environment) (p : pattern) :
    typeFollowsNotes p.checkType ∧
    p.checkType.m_notes = p.m_notes ∧
    (p.m_notes = [] → p.checkType.m_patternType = BEAT_PATTERN) ∧
    ((∀ n ∈ p.m_notes, n.length ≤ 0) → p.checkType.m_patternType = BEAT_PATTERN) ∧
    (∀ (n : note) (q : Bool), typeFollowsNotes (p.addNote env n q)) ∧
    (∀ x : note, typeFollowsNotes (p.removeNote x)) ∧
    typeFollowsNotes p.clearNotes := by
  have h1 : typeFollowsNotes p.checkType :=
    typeFollowsNotes_of_type _ (by rw [checkType_notes]; exact checkType_type p)
  refine ⟨h1, checkType_notes p, ?_, ?_, ?_, ?_, ?_⟩
  · intro he
    exact h1.2.2 (by rw [checkType_notes, he]; simp)
  · intro hall
    exact h1.2.2 (by rw [checkType_notes]; exact hall)
  · intro n q
    exact typeFollowsNotes_of_type _ (addNote_type env p n q)
  · intro x
    exact typeFollowsNotes_of_type _ (removeNote_type p x)
  · exact typeFollowsNotes_of_type _ (by rw [clearNotes_type]; simp)

/-! ## The derived length -/

theorem wrap32_of_range (x : Int) (h1 : -2147483648 ≤ x) (h2 : x ≤ 2147483647) :
    wrap32 x = x := by
  unfold wrap32; omega

theorem beat_length_wrapped (p : pattern) (hb : p.m_patternType = BEAT_PATTERN)
    (hs : 0 ≤ p.m_steps) :
    p.length =
      if p.m_steps % 16 = 0 then wrap32 (p.m_steps * 4)
      else wrap32 (wrap32 (wrap32 (p.m_steps / 16 + 1) * 16) * 4) := by
  unfold pattern.length
  rw [if_pos hb]
  simp only [DEFAULT_STEPS_PER_TACT, BEATS_PER_TACT]
  rw [Int.tmod_eq_emod hs (by decide), Int.tdiv_eq_ediv hs (by decide)]

theorem beat_length_eq (p : pattern) (hb : p.m_patternType = BEAT_PATTERN)
    (hs : 0 ≤ p.m_steps) (hmax : p.m_steps ≤ 536870896) :
    p.length = if p.m_steps % 16 = 0 then p.m_steps * 4 else (p.m_steps / 16 + 1) * 16 * 4 := by
  rw [beat_length_wrapped p hb hs]
  split
  · exact wrap32_of_range _ (by omega) (by omega)
  · rw [wrap32_of_range (p.m_steps / 16 + 1) (by omega) (by omega),
      wrap32_of_range ((p.m_steps / 16 + 1) * 16) (by omega) (by omega),
      wrap32_of_range ((p.m_steps / 16 + 1) * 16 * 4) (by omega) (by omega)]

theorem ceil_sixteenth (s : Int) :
    ⌈(s : ℚ) / 16⌉ = if s % 16 = 0 then s / 16 else s / 16 + 1 := by
  rw [Int.ceil_eq_iff]
  have h16 : (0 : ℚ) < 16 := by norm_num
  split
  · rename_i h0
    have hs : s = 16 * (s / 16) := by omega
    have hq : (s : ℚ) = 16 * ((s / 16 : Int) : ℚ) := by exact_mod_cast hs
    constructor
    · rw [lt_div_iff₀ h16]; linarith
    · rw [div_le_iff₀ h16]; linarith
  · rename_i h0
    have hlo : 16 * (s / 16) < s := by omega
    have hhi : s ≤ 16 * (s / 16 + 1) := by omega
    have hlq : (16 : ℚ) * ((s / 16 : Int) : ℚ) < (s : ℚ) := by exact_mod_cast hlo
    have hhq : (s : ℚ) ≤ 16 * (((s / 16 : Int) : ℚ) + 1) := by exact_mod_cast hhi
    constructor
    · rw [lt_div_iff₀ h16]; push_cast; linarith
    · rw [div_le_iff₀ h16]; push_cast; linarith

/-- C5, counterexample: a beat pattern with 600000000 steps; `m_steps * BEATS_PER_TACT`
does not fit 32 bits, and `length()` is -1894967296, not `64 * ceil( s / 16 )`, which
is 2400000000.  The first number of steps at which this happens is 536870897, where
`length()` is -2147483648. -/
theorem beat_length_overflow_counterexample :
    wideBeat.m_patternType = BEAT_PATTERN ∧ 1 ≤ wideBeat.m_steps ∧
    wideBeat.length = -1894967296 ∧
    64 * ⌈((600000000 : Int) : ℚ) / 16⌉ = 2400000000 ∧
    edgeBeat.m_patternType = BEAT_PATTERN ∧ edgeBeat.length = -2147483648 := by
  refine ⟨rfl, by decide, by decide, ?_, rfl, by decide⟩
  rw [ceil_sixteenth]
  decide

/-- C5, amended: for a beat pattern with `s` steps, `1 <= s <= 536870896`, `length()`
is `ceil( s / DEFAULT_STEPS_PER_TACT ) * DEFAULT_STEPS_PER_TACT * BEATS_PER_TACT`, that
is `64 * ceil( s / 16 )`: 64 for 16 steps, 128 for 20 steps, and the same for every
beat pattern with the same number of steps, whatever its notes. -/
theorem beat_length_rounds_up (p : pattern) (hb : p.m_patternType = BEAT_PATTERN)
    (hs : 1 ≤ p.m_steps) (hmax : p.m_steps ≤ 536870896) :
    p.length = ⌈(p.m_steps : ℚ) / (DEFAULT_STEPS_PER_TACT : ℚ)⌉
                * DEFAULT_STEPS_PER_TACT * BEATS_PER_TACT ∧
    p.length = 64 * ⌈(p.m_steps : ℚ) / 16⌉ ∧
    (p.m_steps = 16 → p.length = 64) ∧
    (p.m_steps = 20 → p.length = 128) ∧
    (∀ q : pattern, q.m_patternType = BEAT_PATTERN → q.m_steps = p.m_steps →
      q.length = p.length) := by
  have hlen := beat_length_eq p hb (by omega) hmax
  have hceil := ceil_sixteenth p.m_steps
  have h2 : p.length = 64 * ⌈(p.m_steps : ℚ) / 16⌉ := by
    rw [hlen, hceil]
    split <;> omega
  refine ⟨?_, h2, ?_, ?_, ?_⟩
  · rw [h2]
    simp only [DEFAULT_STEPS_PER_TACT, BEATS_PER_TACT]
    push_cast
    ring
  · intro h16
    rw [hlen, h16]; decide
  · intro h20
    rw [hlen, h20]; decide
  · intro q hq hqs
    rw [hlen, beat_length_eq q hq (by omega) (by omega), hqs]

/-- An instance of C5: a beat pattern with 20 steps and one active step has length 128. -/
theorem beat_length_rounds_up_witness :
    ({ emptyPattern with m_steps := 20, m_notes := [⟨0, 0, -64, 57, 100⟩] } : pattern).length
      = 128 :=
  (beat_length_rounds_up
    ({ emptyPattern with m_steps := 20, m_notes := [⟨0, 0, -64, 57, 100⟩] } : pattern)
    rfl (by decide) (by decide)).2.2.2.1 rfl

theorem maxEndPos_ge_start (l : List note) (m : Int) : m ≤ maxEndPos m l := by
  induction l generalizing m with
  | nil => exact le_refl m
  | cons n rest ih =>
    exact le_trans (le_max_left m (wrap32 n.endPos)) (ih (max m (wrap32 n.endPos)))

theorem maxEndPos_ge_mem (l : List note) (m : Int) :
    ∀ n ∈ l, wrap32 n.endPos ≤ maxEndPos m l := by
  induction l generalizing m with
  | nil => simp
  | cons x rest ih =>
    intro n hn
    rcases List.mem_cons.1 hn with rfl | hn
    · exact le_trans (le_max_right m (wrap32 n.endPos)) (maxEndPos_ge_start rest _)
    · exact ih (max m (wrap32 x.endPos)) n hn

theorem maxEndPos_attained (l : List note) (m : Int) :
    maxEndPos m l = m ∨ ∃ n ∈ l, wrap32 n.endPos = maxEndPos m l := by
  induction l generalizing m with
  | nil => exact Or.inl rfl
  | cons x rest ih =>
    rcases ih (max m (wrap32 x.endPos)) with h | ⟨n, hn, hmax⟩
    · rcases max_cases m (wrap32 x.endPos) with ⟨hm, _⟩ | ⟨hm, _⟩
      · left; show maxEndPos (max m (wrap32 x.endPos)) rest = m; rw [h, hm]
      · right
        refine ⟨x, List.mem_cons_self x rest, ?_⟩
        show wrap32 x.endPos = maxEndPos (max m (wrap32 x.endPos)) rest
        rw [h, hm]
    · exact Or.inr ⟨n, List.mem_cons_of_mem x hn, hmax⟩

theorem melody_length_eq (p : pattern) (hm : p.m_patternType = MELODY_PATTERN)
    (hmax : maxEndPos 0 p.m_notes ≤ 2147483584) :
    p.length =
      if maxEndPos 0 p.m_notes % 64 = 0 then max (maxEndPos 0 p.m_notes) 64
      else (maxEndPos 0 p.m_notes / 64 + 1) * 64 := by
  have h0 : 0 ≤ maxEndPos 0 p.m_notes := maxEndPos_ge_start p.m_notes 0
  have hnb : ¬ p.m_patternType = BEAT_PATTERN := by rw [hm]; decide
  unfold pattern.length
  rw [if_neg hnb]
  simp only []
  rw [Int.tmod_eq_emod h0 (by decide), Int.tdiv_eq_ediv h0 (by decide)]
  split
  · rfl
  · have hq : 0 ≤ maxEndPos 0 p.m_notes / 64 := Int.ediv_nonneg h0 (by decide)
    rw [wrap32_of_range (maxEndPos 0 p.m_notes / 64 + 1) (by omega) (by omega),
      max_eq_left (by omega),
      wrap32_of_range ((maxEndPos 0 p.m_notes / 64 + 1) * 64) (by omega) (by omega),
      wrap32_of_range ((maxEndPos 0 p.m_notes / 64 + 1) * 64 + 0) (by omega) (by omega)]
    omega

/-- C6, counterexample: a melody pattern whose one note is at position 2147483600 with
length 40; the maximum `M` is 2147483640, the next multiple of 64 does not fit 32
bits, and `length()` is -2147483648, below position plus length of the note.  And a
melody pattern whose one note is at position -2147483648 with length -1: position
plus length wraps to 2147483647, which becomes the maximum although `M` is 0, and
`length()` is -2147483648 instead of 64. -/
theorem melody_length_overflow_counterexample :
    wideMelody.m_patternType = MELODY_PATTERN ∧
    maxEndPos 0 wideMelody.m_notes = 2147483640 ∧
    wideMelody.length = -2147483648 ∧
    lowMelody.m_patternType = MELODY_PATTERN ∧
    maxEndPos 0 lowMelody.m_notes = 2147483647 ∧
    lowMelody.length = -2147483648 := by
  decide

/-- C6, amended: for a melody pattern in which position plus length of every note is
between -2147483648 and 2147483584, with `M` the maximum of 0 and of position plus
length over the notes, `length()` is the least multiple of 64 that is at least `M`
and at least 64: 64 when `M = 0`, `M` when `M` is a positive multiple of 64, and
`64 * ( floor( M / 64 ) + 1 )` otherwise; so it is at least position plus length of
every note, and exceeds `M` by less than 64 when `M >= 64`. -/
theorem melody_length_least_multiple (p : pattern) (hm : p.m_patternType = MELODY_PATTERN)
    (hfit : ∀ n ∈ p.m_notes,
      -2147483648 ≤ n.pos + n.length ∧ n.pos + n.length ≤ 2147483584) :
    (0 ≤ maxEndPos 0 p.m_notes ∧
      (∀ n ∈ p.m_notes, n.pos + n.length ≤ maxEndPos 0 p.m_notes) ∧
      (maxEndPos 0 p.m_notes = 0 ∨ ∃ n ∈ p.m_notes, n.pos + n.length = maxEndPos 0 p.m_notes)) ∧
    (64 ∣ p.length ∧ maxEndPos 0 p.m_notes ≤ p.length ∧ 64 ≤ p.length ∧
      ∀ k : Int, 64 ∣ k → maxEndPos 0 p.m_notes ≤ k → 64 ≤ k → p.length ≤ k) ∧
    (maxEndPos 0 p.m_notes = 0 → p.length = 64) ∧
    (0 < maxEndPos 0 p.m_notes → 64 ∣ maxEndPos 0 p.m_notes →
      p.length = maxEndPos 0 p.m_notes) ∧
    (¬ 64 ∣ maxEndPos 0 p.m_notes → p.length = 64 * (maxEndPos 0 p.m_notes / 64 + 1)) ∧
    (∀ n ∈ p.m_notes, n.pos + n.length ≤ p.length) ∧
    (64 ≤ maxEndPos 0 p.m_notes → p.length - maxEndPos 0 p.m_notes < 64) := by
  have hend : ∀ n ∈ p.m_notes, wrap32 n.endPos = n.pos + n.length := fun n hn =>
    wrap32_of_range _ (hfit n hn).1 (le_trans (hfit n hn).2 (by decide))
  have h0 : 0 ≤ maxEndPos 0 p.m_notes := maxEndPos_ge_start p.m_notes 0
  have hub : ∀ n ∈ p.m_notes, n.pos + n.length ≤ maxEndPos 0 p.m_notes := by
    intro n hn
    rw [← hend n hn]
    exact maxEndPos_ge_mem p.m_notes 0 n hn
  have hatt : maxEndPos 0 p.m_notes = 0 ∨
      ∃ n ∈ p.m_notes, n.pos + n.length = maxEndPos 0 p.m_notes := by
    rcases maxEndPos_attained p.m_notes 0 with h | ⟨n, hn, h⟩
    · exact Or.inl h
    · exact Or.inr ⟨n, hn, by rw [← hend n hn]; exact h⟩
  have hmax : maxEndPos 0 p.m_notes ≤ 2147483584 := by
    rcases hatt with h | ⟨n, hn, h⟩
    · rw [h]; decide
    · rw [← h]; exact (hfit n hn).2
  have hlen := melody_length_eq p hm hmax
  generalize maxEndPos 0 p.m_notes = M at h0 hub hlen hatt ⊢
  have hge : M ≤ p.length := by
    rw [hlen]; split
    · exact le_max_left M 64
    · omega
  refine ⟨⟨h0, hub, hatt⟩, ⟨?_, hge, ?_, ?_⟩, ?_, ?_, ?_, ?_, ?_⟩
  · rw [hlen]; split
    · rcases max_cases M 64 with ⟨h, _⟩ | ⟨h, _⟩
      · rw [h]; omega
      · rw [h]
    · omega
  · rw [hlen]; split
    · exact le_max_right M 64
    · omega
  · intro k hk hMk h64
    rw [hlen]; split
    · exact max_le hMk h64
    · omega
  · intro hM
    rw [hlen, hM]; decide
  · intro hpos hdvd
    rw [hlen, if_pos (by omega), max_eq_left (by omega)]
  · intro hnd
    rw [hlen, if_neg (by omega)]; ring
  · intro n hn
    exact le_trans (hub n hn) hge
  · intro h64
    rw [hlen]; split
    · rw [max_eq_left h64]; omega
    · omega

/-- An instance of C6: a melody pattern whose notes end at 48 and at 100 has length 128. -/
theorem melody_length_least_multiple_witness : melodyDemo.length = 128 :=
  (melody_length_least_multiple melodyDemo rfl (by decide)).2.2.2.2.1 (by decide)

/-! ## The number of steps -/

theorem foldl_steps {α : Type} (f : pattern → α → pattern)
    (hf : ∀ q a, (f q a).m_steps = q.m_steps) (l : List α) (p : pattern) :
    (l.foldl f p).m_steps = p.m_steps := by
  induction l generalizing p with
  | nil => rfl
  | cons a rest ih => rw [List.foldl_cons, ih, hf]

@[simp] theorem ensureBeatNote_steps (env : environment) (p : pattern) (i : Nat) :
    (p.ensureBeatNote env i).m_steps = p.m_steps := by
  unfold pattern.ensureBeatNote
  simp only []
  split <;> simp

@[simp] theorem ensureBeatNotes_steps (env : environment) (p : pattern) :
    (p.ensureBeatNotes env).m_steps = p.m_steps := by
  unfold pattern.ensureBeatNotes
  exact foldl_steps _ (ensureBeatNote_steps env) _ p

@[simp] theorem removeStepNote_steps (p : pattern) (i : Int) :
    (p.removeStepNote i).m_steps = p.m_steps := by
  unfold pattern.removeStepNote
  split <;> simp

@[simp] theorem addSteps_steps (env : environment) (p : pattern) (n : Int) :
    (p.addSteps env n).m_steps = wrap32 (p.m_steps + n) := by
  unfold pattern.addSteps; simp

theorem removeSteps_steps (p : pattern) (n : Int) (h : n < p.m_steps) :
    (p.removeSteps n).m_steps = wrap32 (p.m_steps - n) := by
  unfold pattern.removeSteps
  rw [if_pos h]
  simp only [update_steps]
  rw [foldl_steps _ (fun q k => removeStepNote_steps q _)]

/-- C8, counterexample: a pattern with 2147483647 steps; `addSteps( 1 )` wraps the
number of steps to -2147483648, the guard `1 < m_steps` of `removeSteps( 1 )` fails,
and the number of steps stays at -2147483648. -/
theorem addSteps_overflow_counterexample :
    1 ≤ fullSteps.m_steps ∧
    (fullSteps.addSteps plainEnv 1).m_steps = -2147483648 ∧
    ¬ (1 : Int) < (fullSteps.addSteps plainEnv 1).m_steps ∧
    ((fullSteps.addSteps plainEnv 1).removeSteps 1).m_steps = -2147483648 := by
  have h1 : (fullSteps.addSteps plainEnv 1).m_steps = -2147483648 := by
    rw [addSteps_steps]; decide
  have h2 : ¬ (1 : Int) < (fullSteps.addSteps plainEnv 1).m_steps := by
    rw [h1]; decide
  refine ⟨by decide, h1, h2, ?_⟩
  unfold pattern.removeSteps
  rw [if_neg h2]
  exact h1

/-- C8, amended: for a pattern with `s >= 1` steps and `n >= 1` with
`s + n <= 2147483647`, after `addSteps( n )` the guard `n < m_steps` of
`removeSteps( n )` holds, and `addSteps( n )` followed by `removeSteps( n )` leaves
the number of steps at `s`. -/
theorem addSteps_removeSteps_restores_steps (env : environment) (p : pattern) (n : Int)
    (hs : 1 ≤ p.m_steps) (hn : 1 ≤ n) (hfit : p.m_steps + n ≤ 2147483647) :
    n < (p.addSteps env n).m_steps ∧
    ((p.addSteps env n).removeSteps n).m_steps = p.m_steps := by
  have hadd : (p.addSteps env n).m_steps = p.m_steps + n := by
    rw [addSteps_steps]
    exact wrap32_of_range _ (by omega) hfit
  have hguard : n < (p.addSteps env n).m_steps := by
    rw [hadd]; omega
  refine ⟨hguard, ?_⟩
  rw [removeSteps_steps _ n hguard, hadd]
  rw [wrap32_of_range _ (by omega) (by omega)]
  omega

/-- An instance of C8: two steps added to and removed from a pattern of 16 steps. -/
theorem addSteps_removeSteps_restores_steps_witness :
    (2 : Int) < (beatDemo.addSteps plainEnv 2).m_steps ∧
    ((beatDemo.addSteps plainEnv 2).removeSteps 2).m_steps = beatDemo.m_steps :=
  addSteps_removeSteps_restores_steps plainEnv beatDemo 2 (by decide) (by decide) (by decide)

/-! ## Step toggle and step volume -/

theorem vectorAt_set (l : List note) (step : Int) (n m : note)
    (h : vectorAt l step = some n) : vectorAt (l.set step.toNat m) step = some m := by
  unfold vectorAt at h ⊢
  split at h
  · rename_i h0
    rw [if_pos h0]
    have hlt : step.toNat < l.length := by
      rcases List.getElem?_eq_some_iff.1 h with ⟨hlt, _⟩
      exact hlt
    simp [List.getElem?_set, hlt]
  · exact absurd h (by simp)

theorem mousePressEvent_toggle (p : pattern) (pixelsPerTact step : Int) (n : note)
    (hb : p.m_patternType = BEAT_PATTERN)
    (hw : 192 ≤ pixelsPerTact ∨ p.m_steps ≠ DEFAULT_STEPS_PER_TACT)
    (hstep : step < p.m_steps) (hn : vectorAt p.m_notes step = some n) :
    p.mousePressEvent true pixelsPerTact true step =
      some ({ p with m_notes := p.m_notes.set step.toNat (toggledNote n) } : pattern).update := by
  unfold pattern.mousePressEvent
  rw [if_pos ⟨rfl, hb, hw, rfl⟩, if_neg (not_le.2 hstep), hn]

theorem wheelEvent_step (p : pattern) (pixelsPerTact step delta : Int) (n : note)
    (hb : p.m_patternType = BEAT_PATTERN)
    (hw : 192 ≤ pixelsPerTact ∨ p.m_steps ≠ DEFAULT_STEPS_PER_TACT)
    (hstep : step < p.m_steps) (hn : vectorAt p.m_notes step = some n) :
    p.wheelEvent pixelsPerTact true step delta =
      some ({ p with m_notes := p.m_notes.set step.toNat (wheeledNote n delta) } : pattern).update := by
  unfold pattern.wheelEvent
  rw [if_pos ⟨hb, hw, rfl⟩, if_neg (not_le.2 hstep), hn]

theorem toggledNote_twice (n : note) (hlen : n.length ≤ 0) :
    ((toggledNote (toggledNote n)).length < 0 ↔ n.length < 0) ∧
    (toggledNote (toggledNote n)).volume = n.volume ∧
    (n.length = 0 ∨ n.length = -64 → toggledNote (toggledNote n) = n) := by
  rcases lt_or_eq_of_le hlen with hneg | hzero
  · have h1 : toggledNote n = n.setLength 0 := by unfold toggledNote; rw [if_pos hneg]
    have h2 : toggledNote (n.setLength 0) = (n.setLength 0).setLength (-64) := by
      unfold toggledNote; rw [if_neg (by simp [note.setLength])]
    rw [h1, h2]
    refine ⟨by simp [note.setLength, hneg], rfl, ?_⟩
    intro h
    rcases h with h | h
    · omega
    · cases n; simp only [note.setLength] at h ⊢; subst h; rfl
  · have h1 : toggledNote n = n.setLength (-64) := by
      unfold toggledNote; rw [if_neg (by omega)]
    have h2 : toggledNote (n.setLength (-64)) = (n.setLength (-64)).setLength 0 := by
      unfold toggledNote; rw [if_pos (by simp [note.setLength])]
    rw [h1, h2]
    refine ⟨by simp [note.setLength, hzero], rfl, ?_⟩
    intro _
    cases n; simp only [note.setLength] at hzero ⊢; subst hzero; rfl

/-- C9: the step toggle of `mousePressEvent`, applied twice to the same step whose
note has length `<= 0`, succeeds both times and leaves that step active (length
`< 0`) exactly when it was active before, with its volume unchanged; a step that
was inactive with volume 0 is inactive with volume 0 again, and a step whose length
was 0 or -64 has exactly that length again. -/
theorem step_toggle_twice (p : pattern) (pixelsPerTact step : Int) (n : note)
    (hb : p.m_patternType = BEAT_PATTERN)
    (hw : 192 ≤ pixelsPerTact ∨ p.m_steps ≠ DEFAULT_STEPS_PER_TACT)
    (hstep : step < p.m_steps) (hn : vectorAt p.m_notes step = some n)
    (hlen : n.length ≤ 0) :
    ∃ p1 p2 n2,
      p.mousePressEvent true pixelsPerTact true step = some p1 ∧
      p1.mousePressEvent true pixelsPerTact true step = some p2 ∧
      vectorAt p2.m_notes step = some n2 ∧
      (n2.length < 0 ↔ n.length < 0) ∧
      n2.volume = n.volume ∧
      (n.length = 0 ∧ n.volume = 0 → n2.length = 0 ∧ n2.volume = 0) ∧
      (n.length = 0 ∨ n.length = -64 → n2.length = n.length) := by
  have e1 := mousePressEvent_toggle p pixelsPerTact step n hb hw hstep hn
  have hn1 := vectorAt_set p.m_notes step n (toggledNote n) hn
  have e2 := mousePressEvent_toggle
    ({ p with m_notes := p.m_notes.set step.toNat (toggledNote n) } : pattern).update
    pixelsPerTact step (toggledNote n) hb hw hstep hn1
  have hn2 := vectorAt_set _ step (toggledNote n) (toggledNote (toggledNote n)) hn1
  obtain ⟨hact, hvol, hsame⟩ := toggledNote_twice n hlen
  refine ⟨_, _, toggledNote (toggledNote n), e1, e2, hn2, hact, hvol, ?_, ?_⟩
  · intro h
    rw [hsame (Or.inl h.1)]; exact h
  · intro h
    rw [hsame h]

/-- An instance of C9: step 1 of the demo pattern (inactive, volume 0) toggled twice. -/
theorem step_toggle_twice_witness :
    ∃ p1 p2 n2,
      beatDemo.mousePressEvent true 192 true 1 = some p1 ∧
      p1.mousePressEvent true 192 true 1 = some p2 ∧
      vectorAt p2.m_notes 1 = some n2 ∧
      (n2.length < 0 ↔ (0 : Int) < 0) ∧
      n2.volume = 0 ∧
      ((0 : Int) = 0 ∧ (0 : Nat) = 0 → n2.length = 0 ∧ n2.volume = 0) ∧
      ((0 : Int) = 0 ∨ (0 : Int) = -64 → n2.length = 0) :=
  step_toggle_twice beatDemo 192 1 ⟨1, 4, 0, 57, 0⟩ rfl (Or.inl (by decide)) (by decide)
    (by decide) (by decide)

/-- C10: on an inactive step (length 0) a positive wheel delta activates the step:
the wheel handler succeeds, and afterwards the note of the step has length -64 and
volume 5, whatever its volume was. -/
theorem wheel_up_activates (p : pattern) (pixelsPerTact step delta : Int) (n : note)
    (hb : p.m_patternType = BEAT_PATTERN)
    (hw : 192 ≤ pixelsPerTact ∨ p.m_steps ≠ DEFAULT_STEPS_PER_TACT)
    (hstep : step < p.m_steps) (hn : vectorAt p.m_notes step = some n)
    (hlen : n.length = 0) (hdelta : 0 < delta) :
    wheeledNote n delta = { n with length := -64, volume := 5 } ∧
    ∃ p1,
      p.wheelEvent pixelsPerTact true step delta = some p1 ∧
      vectorAt p1.m_notes step = some { n with length := -64, volume := 5 } := by
  have hnote : wheeledNote n delta = { n with length := -64, volume := 5 } := by
    unfold wheeledNote
    simp only []
    rw [if_pos ⟨hlen, hdelta⟩]
    rfl
  refine ⟨hnote, _, wheelEvent_step p pixelsPerTact step delta n hb hw hstep hn, ?_⟩
  rw [← hnote]
  exact vectorAt_set p.m_notes step n _ hn

/-- An instance of C10: the wheel turned up over the inactive step 1 of the demo pattern. -/
theorem wheel_up_activates_witness :
    wheeledNote ⟨1, 4, 0, 57, 0⟩ 120 = ⟨1, 4, -64, 57, 5⟩ ∧
    ∃ p1,
      beatDemo.wheelEvent 192 true 1 120 = some p1 ∧
      vectorAt p1.m_notes 1 = some ⟨1, 4, -64, 57, 5⟩ :=
  wheel_up_activates beatDemo 192 1 120 ⟨1, 4, 0, 57, 0⟩ rfl (Or.inl (by decide)) (by decide)
    (by decide) rfl (by decide)

/-! ## The slot notes of the steps -/

theorem mem_placeNote (l : List note) (n y : note) :
    y ∈ placeNote l n ↔ y = n ∨ y ∈ l := by
  unfold placeNote
  split
  · simp only [List.mem_append, List.mem_singleton]; tauto
  · split
    · simp only [List.mem_append, List.mem_singleton]; tauto
    · exact mem_insertBefore n y l

theorem any_isSlotNote_iff (l : List note) (i : Int) :
    l.any (isSlotNote i) = true ↔ ∃ n ∈ l, n.pos = i * BEATS_PER_TACT ∧ n.length ≤ 0 := by
  simp [List.any_eq_true, isSlotNote]

theorem storedNote_slot (env : environment) (hex : exactSlots env) (p : pattern) (i : Nat)
    (k : Int) (v : Nat) :
    (storedNote env p ⟨0, (i : Int) * BEATS_PER_TACT, 0, k, v⟩ env.quantDefault).pos
        = (i : Int) * BEATS_PER_TACT ∧
    (storedNote env p ⟨0, (i : Int) * BEATS_PER_TACT, 0, k, v⟩ env.quantDefault).length = 0 := by
  unfold storedNote
  rcases hex with hq | hq
  · rw [hq]; simp
  · cases env.quantDefault
    · simp
    · simp [hq i]

theorem ensureBeatNote_of_slot (env : environment) (p : pattern) (i : Nat)
    (h : p.m_notes.any (isSlotNote i) = true) : p.ensureBeatNote env i = p := by
  unfold pattern.ensureBeatNote
  simp [h]

theorem ensureBeatNote_mono (env : environment) (p : pattern) (i : Nat) (y : note)
    (hy : y ∈ p.m_notes) : y ∈ (p.ensureBeatNote env i).m_notes := by
  unfold pattern.ensureBeatNote
  simp only []
  split
  · rw [addNote_notes]
    exact (mem_placeNote _ _ y).2 (Or.inr hy)
  · exact hy

theorem ensureBeatNote_slot (env : environment) (hex : exactSlots env) (p : pattern)
    (i : Nat) : (p.ensureBeatNote env i).m_notes.any (isSlotNote i) = true := by
  by_cases h : p.m_notes.any (isSlotNote i) = true
  · rw [ensureBeatNote_of_slot env p i h]; exact h
  · unfold pattern.ensureBeatNote
    simp only []
    rw [if_pos (by simpa using h), addNote_notes, any_isSlotNote_iff]
    obtain ⟨hpos, hlen⟩ := storedNote_slot env hex p i env.stepKey env.stepVolume
    exact ⟨_, (mem_placeNote _ _ _).2 (Or.inl rfl), hpos, le_of_eq hlen⟩

theorem any_isSlotNote_mono (l1 l2 : List note) (i : Int) (hsub : ∀ y ∈ l1, y ∈ l2)
    (h : l1.any (isSlotNote i) = true) : l2.any (isSlotNote i) = true := by
  rw [any_isSlotNote_iff] at h ⊢
  obtain ⟨n, hn, hp⟩ := h
  exact ⟨n, hsub n hn, hp⟩

theorem ensureBeatNotes_fold_slots (env : environment) (hex : exactSlots env) (k : Nat)
    (p : pattern) :
    (∀ y ∈ p.m_notes, y ∈ ((List.range k).foldl (pattern.ensureBeatNote env) p).m_notes) ∧
    ∀ i : Nat, i < k →
      ((List.range k).foldl (pattern.ensureBeatNote env) p).m_notes.any (isSlotNote i) = true := by
  induction k with
  | zero => exact ⟨fun y hy => hy, fun i hi => absurd hi (Nat.not_lt_zero i)⟩
  | succ k ih =>
    rw [List.range_succ, List.foldl_append]
    simp only [List.foldl_cons, List.foldl_nil]
    refine ⟨fun y hy => ensureBeatNote_mono env _ k y (ih.1 y hy), ?_⟩
    intro i hi
    rcases Nat.lt_succ_iff_lt_or_eq.1 hi with hlt | rfl
    · exact any_isSlotNote_mono _ _ i (fun y hy => ensureBeatNote_mono env _ k y hy) (ih.2 i hlt)
    · exact ensureBeatNote_slot env hex _ i

theorem ensureBeatNotes_fold_id (env : environment) (l : List Nat) (p : pattern)
    (h : ∀ i ∈ l, p.m_notes.any (isSlotNote i) = true) :
    l.foldl (pattern.ensureBeatNote env) p = p := by
  induction l with
  | nil => rfl
  | cons i rest ih =>
    rw [List.foldl_cons, ensureBeatNote_of_slot env p i (h i (List.mem_cons_self i rest))]
    exact ih (fun j hj => h j (List.mem_cons_of_mem i hj))

/-- Idempotence under exact placement: when the synthesized slot notes are stored
at the exact positions of their steps, then for every pattern state a second run
of `ensureBeatNotes` changes nothing (same notes, no note allocated), and after the
first run every step `i` in `[0, m_steps)` has a note at position
`i * BEATS_PER_TACT` with length `<= 0`. -/
theorem ensureBeatNotes_idempotent_when_exact (env : environment) (hex : exactSlots env) (p : pattern) :
    (p.ensureBeatNotes env).ensureBeatNotes env = p.ensureBeatNotes env ∧
    ((p.ensureBeatNotes env).ensureBeatNotes env).m_notes = (p.ensureBeatNotes env).m_notes ∧
    ∀ i : Int, 0 ≤ i → i < p.m_steps →
      ∃ n ∈ (p.ensureBeatNotes env).m_notes, n.pos = i * BEATS_PER_TACT ∧ n.length ≤ 0 := by
  have hslots : ∀ i : Nat, i < p.m_steps.toNat →
      (p.ensureBeatNotes env).m_notes.any (isSlotNote i) = true :=
    (ensureBeatNotes_fold_slots env hex p.m_steps.toNat p).2
  have hst : (p.ensureBeatNotes env).m_steps = p.m_steps := ensureBeatNotes_steps env p
  have hid : (p.ensureBeatNotes env).ensureBeatNotes env = p.ensureBeatNotes env := by
    generalize p.ensureBeatNotes env = r at hst hslots
    unfold pattern.ensureBeatNotes
    rw [hst]
    apply ensureBeatNotes_fold_id
    intro i hi
    exact hslots i (List.mem_range.1 hi)
  refine ⟨hid, by rw [hid], ?_⟩
  intro i h0 hlt
  have hi : i.toNat < p.m_steps.toNat := by omega
  have := hslots i.toNat hi
  rw [any_isSlotNote_iff, Int.toNat_of_nonneg h0] at this
  exact this

/-- An instance of the idempotence under exact placement: the demo pattern, whose
steps 2 to 15 have no notes yet. -/
theorem ensureBeatNotes_idempotent_when_exact_instance :
    (beatDemo.ensureBeatNotes plainEnv).ensureBeatNotes plainEnv
      = beatDemo.ensureBeatNotes plainEnv :=
  (ensureBeatNotes_idempotent_when_exact plainEnv (Or.inl rfl) beatDemo).1

/-- C4, failing input: a pattern with two steps and no notes, while `addNote` quantizes
by default to multiples of 8.  The note that `ensureBeatNotes` makes for step 1 is
stored at position 8, not at 4; after the first run no note is at position 4, and
the second run makes one more note, again stored at 8: `ensureBeatNotes` is not
idempotent there. -/
theorem ensureBeatNotes_coarse_quantization :
    ((({ emptyPattern with m_steps := 2 } : pattern).ensureBeatNotes coarseEnv).m_notes.map
        note.pos = [0, 8]) ∧
    ((({ emptyPattern with m_steps := 2 } : pattern).ensureBeatNotes coarseEnv).m_notes.filter
        (isSlotNote 1) = []) ∧
    (((({ emptyPattern with m_steps := 2 } : pattern).ensureBeatNotes coarseEnv).ensureBeatNotes
        coarseEnv).m_notes.map note.pos = [0, 8, 8]) ∧
    ((({ emptyPattern with m_steps := 2 } : pattern).ensureBeatNotes coarseEnv).ensureBeatNotes
        coarseEnv ≠ ({ emptyPattern with m_steps := 2 } : pattern).ensureBeatNotes coarseEnv) := by
  decide

/-! ## The step grid -/

theorem slotsFrom_append (A B : List note) (start : Nat) :
    slotsFrom start (A ++ B) ↔ slotsFrom start A ∧ slotsFrom (start + A.length) B := by
  induction A generalizing start with
  | nil => simp [slotsFrom]
  | cons x rest ih =>
    have e : start + 1 + rest.length = start + (rest.length + 1) := by omega
    show (x.pos = (start : Int) * BEATS_PER_TACT ∧ x.length ≤ 0 ∧
        slotsFrom (start + 1) (rest ++ B)) ↔
      (x.pos = (start : Int) * BEATS_PER_TACT ∧ x.length ≤ 0 ∧ slotsFrom (start + 1) rest) ∧
        slotsFrom (start + (rest.length + 1)) B
    rw [ih, e]
    tauto

theorem slotsFrom_mem (l : List note) (start : Nat) (h : slotsFrom start l) :
    ∀ n ∈ l, n.length ≤ 0 ∧
      ∃ j : Nat, start ≤ j ∧ j < start + l.length ∧ n.pos = (j : Int) * BEATS_PER_TACT := by
  induction l generalizing start with
  | nil => simp
  | cons x rest ih =>
    obtain ⟨hpos, hlen, hrest⟩ := h
    intro n hn
    rcases List.mem_cons.1 hn with rfl | hn
    · exact ⟨hlen, start, le_refl _, by simp, hpos⟩
    · obtain ⟨hl, j, hj1, hj2, hj3⟩ := ih (start + 1) hrest n hn
      exact ⟨hl, j, by omega, by simp only [List.length_cons]; omega, hj3⟩

theorem isSlotNote_false_of_ne (n : note) (i j : Nat) (hp : n.pos = (j : Int) * BEATS_PER_TACT)
    (hne : j ≠ i) : isSlotNote (i : Int) n = false := by
  unfold isSlotNote
  have : ¬ n.pos = (i : Int) * BEATS_PER_TACT := by
    rw [hp]; unfold BEATS_PER_TACT; omega
  simp [this]

theorem slotsFrom_no_slot (l : List note) (start i : Nat) (h : slotsFrom start l)
    (hi : i < start ∨ start + l.length ≤ i) : ∀ n ∈ l, isSlotNote (i : Int) n = false := by
  intro n hn
  obtain ⟨_, j, hj1, hj2, hj3⟩ := slotsFrom_mem l start h n hn
  exact isSlotNote_false_of_ne n i j hj3 (by omega)

theorem slotsFrom_filter (l : List note) (start i : Nat) (h : slotsFrom start l)
    (h1 : start ≤ i) (h2 : i < start + l.length) :
    ∃ n, l[i - start]? = some n ∧ n.pos = (i : Int) * BEATS_PER_TACT ∧ n.length ≤ 0 ∧
      l.filter (isSlotNote (i : Int)) = [n] := by
  induction l generalizing start with
  | nil => simp at h2; omega
  | cons x rest ih =>
    obtain ⟨hpos, hlen, hrest⟩ := h
    rcases Nat.eq_or_lt_of_le h1 with heq | hlt
    · subst heq
      refine ⟨x, by simp, hpos, hlen, ?_⟩
      have hx : isSlotNote (start : Int) x = true := by simp [isSlotNote, hpos, hlen]
      have hnone := slotsFrom_no_slot rest (start + 1) start hrest (Or.inl (by omega))
      rw [List.filter_cons, if_pos hx, List.filter_eq_nil_iff.2 (by simpa using hnone)]
    · have hlen2 : i < start + 1 + rest.length := by
        simp only [List.length_cons] at h2; omega
      obtain ⟨n, hn, hp, hl, hf⟩ := ih (start + 1) hrest (by omega) hlen2
      have hx : isSlotNote (i : Int) x = false :=
        isSlotNote_false_of_ne x i start hpos (by omega)
      refine ⟨n, ?_, hp, hl, ?_⟩
      · have e : i - start = (i - (start + 1)) + 1 := by omega
        rw [e, List.getElem?_cons_succ]; exact hn
      · rw [List.filter_cons, if_neg (by simp [hx])]; exact hf

theorem slotsFrom_any (l : List note) (i : Nat) (h : slotsFrom 0 l) :
    l.any (isSlotNote (i : Int)) = decide (i < l.length) := by
  by_cases hi : i < l.length
  · obtain ⟨n, hn, hp, hl, _⟩ := slotsFrom_filter l 0 i h (Nat.zero_le _) (by omega)
    rw [decide_eq_true hi, any_isSlotNote_iff]
    exact ⟨n, List.getElem?_mem hn, hp, hl⟩
  · have hnone := slotsFrom_no_slot l 0 i h (Or.inr (by omega))
    rw [decide_eq_false hi]
    simpa [List.any_eq_false] using hnone

theorem placeNote_grid (l : List note) (n : note) (h : slotsFrom 0 l)
    (hp : n.pos = (l.length : Int) * BEATS_PER_TACT) : placeNote l n = l ++ [n] := by
  unfold placeNote
  split
  · rfl
  · rename_i back hb
    have hmem : back ∈ l := List.mem_of_getLast?_eq_some hb
    obtain ⟨_, j, _, hj2, hj3⟩ := slotsFrom_mem l 0 h back hmem
    have hle : back.pos ≤ n.pos := by
      rw [hp, hj3]; unfold BEATS_PER_TACT; omega
    rw [if_pos hle]

theorem ensureBeatNote_grid (env : environment) (hex : exactSlots env) (p : pattern)
    (len i : Nat) (h : gridNotes p len) (hi : i ≤ len) :
    gridNotes (p.ensureBeatNote env i) (max len (i + 1)) := by
  obtain ⟨hlen, hslots, hnodup, hbelow⟩ := h
  rcases Nat.lt_or_eq_of_le hi with hlt | heq
  · have hany : p.m_notes.any (isSlotNote (i : Int)) = true := by
      rw [slotsFrom_any _ i hslots, hlen]; simpa using hlt
    rw [ensureBeatNote_of_slot env p i hany, max_eq_left (by omega)]
    exact ⟨hlen, hslots, hnodup, hbelow⟩
  · subst heq
    have hany : p.m_notes.any (isSlotNote (i : Int)) = false := by
      rw [slotsFrom_any _ i hslots, hlen]; simp
    obtain ⟨hpos, hzero⟩ := storedNote_slot env hex p i env.stepKey env.stepVolume
    have haddr : (storedNote env p ⟨0, (i : Int) * BEATS_PER_TACT, 0, env.stepKey,
        env.stepVolume⟩ env.quantDefault).addr = p.heapTop := by
      unfold storedNote; split <;> rfl
    have hnotes : (p.ensureBeatNote env i).m_notes = p.m_notes ++
        [storedNote env p ⟨0, (i : Int) * BEATS_PER_TACT, 0, env.stepKey, env.stepVolume⟩
          env.quantDefault] := by
      unfold pattern.ensureBeatNote
      simp only []
      rw [if_pos hany, addNote_notes]
      exact placeNote_grid _ _ hslots (by rw [hpos, hlen])
    have htop : (p.ensureBeatNote env i).heapTop = p.heapTop + 1 := by
      unfold pattern.ensureBeatNote
      simp only []
      rw [if_pos hany, addNote_heapTop]
    rw [max_eq_right (by omega)]
    refine ⟨?_, ?_, ?_, ?_⟩
    · rw [hnotes, List.length_append, hlen]; rfl
    · rw [hnotes, slotsFrom_append]
      refine ⟨hslots, ?_⟩
      rw [hlen, Nat.zero_add]
      exact ⟨hpos, le_of_eq hzero, trivial⟩
    · rw [hnotes, List.map_append, List.nodup_append]
      refine ⟨hnodup, by simp, ?_⟩
      intro a ha hb
      simp only [List.map_cons, List.map_nil, List.mem_singleton] at hb
      obtain ⟨y, hy, hya⟩ := List.mem_map.1 ha
      have := hbelow y hy
      rw [hya, hb, haddr] at this
      exact absurd this (lt_irrefl _)
    · intro n hn
      rw [htop]
      rw [hnotes, List.mem_append, List.mem_singleton] at hn
      rcases hn with hn | hn
      · exact Nat.lt_succ_of_lt (hbelow n hn)
      · rw [hn, haddr]; exact Nat.lt_succ_self _

theorem ensureBeatNotes_fold_grid (env : environment) (hex : exactSlots env) (k len : Nat)
    (p : pattern) (h : gridNotes p len) :
    gridNotes ((List.range k).foldl (pattern.ensureBeatNote env) p) (max len k) := by
  induction k with
  | zero => simpa using h
  | succ k ih =>
    rw [List.range_succ, List.foldl_append]
    simp only [List.foldl_cons, List.foldl_nil]
    have := ensureBeatNote_grid env hex _ (max len k) k ih (le_max_right len k)
    have e : max (max len k) (k + 1) = max len (k + 1) := by omega
    rw [e] at this
    exact this

theorem ensureBeatNotes_grid (env : environment) (hex : exactSlots env) (len : Nat)
    (p : pattern) (h : gridNotes p len) :
    gridNotes (p.ensureBeatNotes env) (max len p.m_steps.toNat) := by
  unfold pattern.ensureBeatNotes
  exact ensureBeatNotes_fold_grid env hex _ len p h

theorem find_behind (P : note → Bool) (A B : List note) (b : note)
    (hA : ∀ a ∈ A, P a = false) (hb : P b = true) : (A ++ b :: B).find? P = some b := by
  induction A with
  | nil => simp [List.find?_cons, hb]
  | cons a rest ih =>
    have ha : P a = false := hA a (List.mem_cons_self a rest)
    rw [List.cons_append, List.find?_cons, ha]
    exact ih (fun y hy => hA y (List.mem_cons_of_mem a hy))

theorem addr_ne_of_nodup (A B : List note) (b : note)
    (h : ((A ++ b :: B).map note.addr).Nodup) : ∀ y ∈ A, y.addr ≠ b.addr := by
  rw [List.map_append, List.nodup_append] at h
  intro y hy heq
  exact h.2.2 (List.mem_map_of_mem note.addr hy)
    (by rw [heq]; exact List.mem_map_of_mem note.addr (List.mem_cons_self b B))

theorem nodup_without (A B : List note) (b : note)
    (h : ((A ++ b :: B).map note.addr).Nodup) : ((A ++ B).map note.addr).Nodup := by
  refine List.Nodup.sublist ?_ h
  exact List.Sublist.map _
    (List.Sublist.append (List.Sublist.refl A) (List.sublist_cons_self b B))

theorem removeStepNote_behind (p : pattern) (A B : List note) (b : note) (i : Nat)
    (hn : p.m_notes = A ++ b :: B) (hA : slotsFrom 0 A) (hAi : A.length ≤ i)
    (hb : b.pos = (i : Int) * BEATS_PER_TACT) (hbl : b.length ≤ 0)
    (hnodup : (p.m_notes.map note.addr).Nodup) :
    (p.removeStepNote (i : Int)).m_notes = A ++ B ∧
    (p.removeStepNote (i : Int)).heapTop = p.heapTop := by
  have hnoA := slotsFrom_no_slot A 0 i hA (Or.inr (by omega))
  have hslot : isSlotNote (i : Int) b = true := by simp [isSlotNote, hb, hbl]
  have hfind : p.m_notes.find? (isSlotNote (i : Int)) = some b := by
    rw [hn]; exact find_behind _ A B b hnoA hslot
  unfold pattern.removeStepNote
  rw [hfind]
  simp only [removeNote_heapTop, removeNote_notes, and_true]
  rw [hn]
  exact eraseNote_edited A B b (addr_ne_of_nodup A B b (hn ▸ hnodup))

theorem removeSteps_fold (p : pattern) (A B : List note) (base : Int)
    (hbase : base = (A.length : Int)) (hn : p.m_notes = A ++ B) (hA : slotsFrom 0 A)
    (hB : slotsFrom A.length B) (hnodup : (p.m_notes.map note.addr).Nodup) (k : Nat)
    (hk : k ≤ B.length) :
    ((List.range k).foldl (fun q j => q.removeStepNote (base + (j : Int))) p).m_notes
        = A ++ B.drop k ∧
    ((List.range k).foldl (fun q j => q.removeStepNote (base + (j : Int))) p).heapTop
        = p.heapTop := by
  induction k with
  | zero => simpa using hn
  | succ k ih =>
    obtain ⟨ihn, iht⟩ := ih (by omega)
    rw [List.range_succ, List.foldl_append]
    simp only [List.foldl_cons, List.foldl_nil]
    generalize (List.range k).foldl (fun q j => q.removeStepNote (base + (j : Int))) p = q
      at ihn iht
    have hklt : k < B.length := by omega
    obtain ⟨b, hbk, hbpos, hblen, _⟩ :=
      slotsFrom_filter B A.length (A.length + k) hB (by omega) (by omega)
    have hidx : A.length + k - A.length = k := by omega
    rw [hidx] at hbk
    have hdrop : B.drop k = b :: B.drop (k + 1) := by
      obtain ⟨hlt, hget⟩ := List.getElem?_eq_some_iff.1 hbk
      rw [← hget]; exact List.drop_eq_getElem_cons hlt
    rw [hdrop] at ihn
    have hqnodup : (q.m_notes.map note.addr).Nodup := by
      rw [ihn, ← hdrop]
      refine List.Nodup.sublist ?_ hnodup
      rw [hn]
      exact List.Sublist.map _
        (List.Sublist.append (List.Sublist.refl A) (List.drop_sublist k B))
    have hcast : base + (k : Int) = ((A.length + k : Nat) : Int) := by
      rw [hbase]; push_cast; rfl
    rw [hcast]
    obtain ⟨h1, h2⟩ := removeStepNote_behind q A (B.drop (k + 1)) b (A.length + k) ihn hA
      (by omega) hbpos hblen hqnodup
    exact ⟨h1, by rw [h2, iht]⟩

theorem stepGrid_iff_gridNotes (p : pattern) :
    stepGrid p ↔
      (1 ≤ p.m_steps ∧ p.m_steps ≤ 2147483647) ∧ gridNotes p p.m_steps.toNat := by
  unfold stepGrid gridNotes
  constructor
  · rintro ⟨h1, h2, h3, h4, h5⟩
    exact ⟨h1, ⟨by omega, h3, h4, h5⟩⟩
  · rintro ⟨h1, h2, h3, h4, h5⟩
    exact ⟨h1, by omega, h3, h4, h5⟩

theorem clear_stepGrid (env : environment) (hex : exactSlots env) (p0 : pattern)
    (h : 1 ≤ p0.m_steps ∧ p0.m_steps ≤ 2147483647) : stepGrid (p0.clear env) := by
  rw [stepGrid_iff_gridNotes]
  unfold pattern.clear
  rw [ensureBeatNotes_steps, clearNotes_steps]
  refine ⟨h, ?_⟩
  have h0 : gridNotes p0.clearNotes 0 := by
    unfold gridNotes
    rw [clearNotes_notes]
    exact ⟨rfl, trivial, List.nodup_nil, fun n hn => absurd hn (List.not_mem_nil n)⟩
  have := ensureBeatNotes_grid env hex 0 _ h0
  rw [clearNotes_steps, Nat.zero_max] at this
  exact this

theorem addSteps_stepGrid (env : environment) (hex : exactSlots env) (p : pattern) (n : Int)
    (hp : stepGrid p) (hn : 1 ≤ n ∧ p.m_steps + n ≤ 2147483647) :
    stepGrid (p.addSteps env n) := by
  rw [stepGrid_iff_gridNotes] at hp ⊢
  obtain ⟨h1, hg⟩ := hp
  have hw : wrap32 (p.m_steps + n) = p.m_steps + n :=
    wrap32_of_range _ (by omega) hn.2
  rw [addSteps_steps, hw]
  refine ⟨by omega, ?_⟩
  unfold pattern.addSteps
  simp only [hw]
  have hg2 : gridNotes ({ p with m_steps := p.m_steps + n } : pattern) p.m_steps.toNat := hg
  have := ensureBeatNotes_grid env hex _ _ hg2
  have e : max p.m_steps.toNat (p.m_steps + n).toNat = (p.m_steps + n).toNat := by omega
  simp only [e] at this
  exact this

theorem removeSteps_stepGrid (p : pattern) (n : Int) (hp : stepGrid p) (hn : 1 ≤ n) :
    stepGrid (p.removeSteps n) := by
  by_cases hlt : n < p.m_steps
  · obtain ⟨h1, hlen, hslots, hnodup, hbelow⟩ := hp
    have hw : wrap32 (p.m_steps - n) = p.m_steps - n :=
      wrap32_of_range _ (by omega) (by omega)
    have hcnt : (p.m_steps - (p.m_steps - n)).toNat = n.toNat := by
      congr 1; omega
    have hsplit : p.m_notes =
        p.m_notes.take (p.m_notes.length - n.toNat) ++
          p.m_notes.drop (p.m_notes.length - n.toNat) :=
      (List.take_append_drop _ _).symm
    have htake : (p.m_notes.take (p.m_notes.length - n.toNat)).length
        = p.m_notes.length - n.toNat := by
      rw [List.length_take]; omega
    have hdropl : (p.m_notes.drop (p.m_notes.length - n.toNat)).length = n.toNat := by
      rw [List.length_drop]; omega
    have hsl := hslots
    rw [hsplit, slotsFrom_append, Nat.zero_add] at hsl
    have hbase : p.m_steps - n = ((p.m_notes.take (p.m_notes.length - n.toNat)).length : Int) := by
      rw [htake]; omega
    obtain ⟨hnotes, htop⟩ := removeSteps_fold p _ _ (p.m_steps - n) hbase hsplit hsl.1 hsl.2
      hnodup n.toNat (by omega)
    rw [List.drop_of_length_le (by omega), List.append_nil] at hnotes
    have hsteps := removeSteps_steps p n hlt
    rw [hw] at hsteps
    unfold pattern.removeSteps at hsteps ⊢
    rw [if_pos hlt] at hsteps ⊢
    simp only [update_steps, update_notes, update_heapTop, hw, hcnt] at hsteps ⊢
    unfold stepGrid
    simp only [update_steps, update_notes, update_heapTop]
    rw [hsteps, hnotes, htop]
    refine ⟨by omega, by rw [htake]; omega, hsl.1, ?_, ?_⟩
    · exact List.Nodup.sublist (List.Sublist.map _ (List.take_sublist _ _)) hnodup
    · intro x hx
      exact hbelow x (List.mem_of_mem_take hx)
  · unfold pattern.removeSteps
    rw [if_neg hlt]
    exact hp

theorem stepGrid_slot (p : pattern) (hp : stepGrid p) (i : Int) (h0 : 0 ≤ i)
    (hlt : i < p.m_steps) :
    ∃ n, vectorAt p.m_notes i = some n ∧ n.pos = i * BEATS_PER_TACT ∧ n.length ≤ 0 ∧
      p.m_notes.filter (isSlotNote i) = [n] := by
  obtain ⟨_, hlen, hslots, _, _⟩ := hp
  obtain ⟨n, hn, hpos, hl, hf⟩ :=
    slotsFrom_filter p.m_notes 0 i.toNat hslots (Nat.zero_le _) (by omega)
  rw [Int.toNat_of_nonneg h0] at hpos hf
  refine ⟨n, ?_, hpos, hl, hf⟩
  unfold vectorAt
  rw [if_pos h0]
  simpa using hn

theorem slotsFrom_set (l : List note) (start k : Nat) (n m : note) (h : slotsFrom start l)
    (hk : l[k]? = some n) (hpos : m.pos = n.pos) (hlen : m.length ≤ 0) :
    slotsFrom start (l.set k m) := by
  induction l generalizing start k with
  | nil => simp at hk
  | cons x rest ih =>
    obtain ⟨hx, hxl, hrest⟩ := h
    cases k with
    | zero =>
      simp only [List.getElem?_cons_zero, Option.some.injEq] at hk
      subst hk
      exact ⟨by rw [hpos]; exact hx, hlen, hrest⟩
    | succ k =>
      rw [List.getElem?_cons_succ] at hk
      exact ⟨hx, hxl, ih (start + 1) k hrest hk⟩

theorem map_addr_set (l : List note) (k : Nat) (n m : note) (hk : l[k]? = some n)
    (haddr : m.addr = n.addr) : (l.set k m).map note.addr = l.map note.addr := by
  induction l generalizing k with
  | nil => simp at hk
  | cons x rest ih =>
    cases k with
    | zero =>
      simp only [List.getElem?_cons_zero, Option.some.injEq] at hk
      subst hk
      simp [haddr]
    | succ k =>
      rw [List.getElem?_cons_succ] at hk
      simp [ih k hk]

theorem stepGrid_set (p : pattern) (hp : stepGrid p) (step : Int) (n m : note)
    (hn : vectorAt p.m_notes step = some n) (hpos : m.pos = n.pos) (haddr : m.addr = n.addr)
    (hlen : m.length ≤ 0) :
    stepGrid ({ p with m_notes := p.m_notes.set step.toNat m } : pattern).update := by
  obtain ⟨h1, hl, hslots, hnodup, hbelow⟩ := hp
  have hk : p.m_notes[step.toNat]? = some n := by
    unfold vectorAt at hn
    split at hn
    · exact hn
    · exact absurd hn (by simp)
  have hmap := map_addr_set p.m_notes step.toNat n m hk haddr
  unfold stepGrid
  simp only [update_steps, update_notes, update_heapTop]
  refine ⟨h1, by rw [List.length_set]; exact hl,
    slotsFrom_set _ 0 _ n m hslots hk hpos hlen, by rw [hmap]; exact hnodup, ?_⟩
  intro x hx
  have hxa : x.addr ∈ (p.m_notes.set step.toNat m).map note.addr :=
    List.mem_map_of_mem note.addr hx
  rw [hmap] at hxa
  obtain ⟨y, hy, hya⟩ := List.mem_map.1 hxa
  rw [← hya]
  exact hbelow y hy

theorem toggledNote_slot (n : note) :
    (toggledNote n).pos = n.pos ∧ (toggledNote n).addr = n.addr ∧ (toggledNote n).length ≤ 0 := by
  unfold toggledNote
  split <;> simp [note.setLength]

theorem wheeledNote_slot (n : note) (delta : Int) (h : n.length ≤ 0) :
    (wheeledNote n delta).pos = n.pos ∧ (wheeledNote n delta).addr = n.addr ∧
    (wheeledNote n delta).length ≤ 0 := by
  unfold wheeledNote
  simp only []
  split
  · simp [note.setLength, note.setVolume]
  · split
    · split <;> simp [note.setVolume, h]
    · split <;> simp [note.setLength, note.setVolume, h]

theorem mousePressEvent_stepGrid (p q : pattern) (lb : Bool) (ppt : Int) (row : Bool)
    (step : Int) (hp : stepGrid p) (hq : p.mousePressEvent lb ppt row step = some q) :
    stepGrid q := by
  unfold pattern.mousePressEvent at hq
  split at hq
  · split at hq
    · cases hq; exact hp
    · split at hq
      · exact absurd hq (by simp)
      · rename_i n hn
        cases hq
        obtain ⟨h1, h2, h3⟩ := toggledNote_slot n
        exact stepGrid_set p hp step n _ hn h1 h2 h3
  · cases hq; exact hp

theorem wheelEvent_stepGrid (p q : pattern) (ppt : Int) (row : Bool) (step delta : Int)
    (hp : stepGrid p) (h0 : 0 ≤ step) (hq : p.wheelEvent ppt row step delta = some q) :
    stepGrid q := by
  unfold pattern.wheelEvent at hq
  split at hq
  · split at hq
    · cases hq; exact hp
    · rename_i hlt
      obtain ⟨m, hm, _, hml, _⟩ := stepGrid_slot p hp step h0 (not_le.1 hlt)
      split at hq
      · exact absurd hq (by simp)
      · rename_i n hn
        cases hq
        have hnm : n = m := by rw [hm] at hn; exact (Option.some.inj hn).symm
        obtain ⟨h1, h2, h3⟩ := wheeledNote_slot n delta (by rw [hnm]; exact hml)
        exact stepGrid_set p hp step n _ hn h1 h2 h3
  · cases hq; exact hp

theorem reachable_stepGrid (p : pattern) (hr : reachable exactSlots p) : stepGrid p := by
  induction hr with
  | cleared env hex p0 h => exact clear_stepGrid env hex p0 h
  | step env hex p q op _ ha hq ih =>
    cases op with
    | add n =>
      cases hq
      exact addSteps_stepGrid env hex p n ih ha
    | remove n =>
      cases hq
      exact removeSteps_stepGrid p n ih ha
    | press lb ppt row step => exact mousePressEvent_stepGrid p q lb ppt row step ih hq
    | wheel ppt row step delta => exact wheelEvent_stepGrid p q ppt row step delta ih ha.1 hq

/-- The step grid under exact placement: in every state reached from a cleared
pattern with at least one step by `addSteps( n )` and `removeSteps( n )` with
`n >= 1`, step toggles and step-volume changes on steps in `[0, m_steps)`, each run
in an environment in which slot notes are stored at the exact positions of their
steps, and with the number of steps staying an `int`, the collection holds exactly
`m_steps` notes, and for every step `i` in `[0, m_steps)` the note at index `i` is at
position `i * BEATS_PER_TACT` with length `<= 0` and is the only such note; so
`m_notes[step]` is inside the vector for the step toggle and the volume wheel, and
every allowed operation leads to a next state. -/
theorem step_grid_when_exact (p : pattern) (hr : reachable exactSlots p) :
    (1 ≤ p.m_steps ∧ p.m_steps ≤ 2147483647) ∧
    (p.m_notes.length : Int) = p.m_steps ∧
    (∀ i : Int, 0 ≤ i → i < p.m_steps →
      ∃ n, vectorAt p.m_notes i = some n ∧ n.pos = i * BEATS_PER_TACT ∧ n.length ≤ 0 ∧
        p.m_notes.filter (isSlotNote i) = [n]) ∧
    (∀ env : environment, exactSlots env → ∀ op : stepOp, op.allowed p →
      ∃ q, applyStepOp env p op = some q ∧ reachable exactSlots q) := by
  have hg := reachable_stepGrid p hr
  refine ⟨hg.1, hg.2.1, fun i h0 hlt => stepGrid_slot p hg i h0 hlt, ?_⟩
  intro env hex op ha
  have hsome : ∃ q, applyStepOp env p op = some q := by
    cases op with
    | add n => exact ⟨_, rfl⟩
    | remove n => exact ⟨_, rfl⟩
    | press lb ppt row step =>
      obtain ⟨n, hn, _⟩ := stepGrid_slot p hg step ha.1 ha.2
      show ∃ q, p.mousePressEvent lb ppt row step = some q
      unfold pattern.mousePressEvent
      split
      · rw [if_neg (not_le.2 ha.2), hn]; exact ⟨_, rfl⟩
      · exact ⟨_, rfl⟩
    | wheel ppt row step delta =>
      obtain ⟨n, hn, _⟩ := stepGrid_slot p hg step ha.1 ha.2
      show ∃ q, p.wheelEvent ppt row step delta = some q
      unfold pattern.wheelEvent
      split
      · rw [if_neg (not_le.2 ha.2), hn]; exact ⟨_, rfl⟩
      · exact ⟨_, rfl⟩
  obtain ⟨q, hq⟩ := hsome
  exact ⟨q, hq, reachable.step env hex p q op hr ha hq⟩

/-- An instance of the step grid under exact placement: the grid after clearing,
adding two steps and removing one. -/
theorem step_grid_when_exact_instance :
    (gridDemo.m_notes.length : Int) = gridDemo.m_steps :=
  (step_grid_when_exact gridDemo
    (reachable.step plainEnv (Or.inl rfl) _ _ (stepOp.remove 1)
      (reachable.step plainEnv (Or.inl rfl) _ _ (stepOp.add 2)
        (reachable.cleared plainEnv (Or.inl rfl) emptyPattern ⟨by decide, by decide⟩)
        (show (1 : Int) ≤ 2 ∧ (emptyPattern.clear plainEnv).m_steps + 2 ≤ 2147483647 from
          ⟨by decide, by decide⟩) rfl)
      (show (1 : Int) ≤ 1 by decide) rfl)).2.1

/-- C3, failing input: a pattern with three steps, cleared while `addNote` quantizes
by default to multiples of 8.  The state is reached from a cleared pattern, yet the
collection holds two notes, at positions 0 and 8, for three steps: no note is at
position 4 of step 1, the note at index 1 is the one at position 8, and
`m_notes[2]` is outside the vector, so the step toggle and the volume wheel on
step 2 have no defined result. -/
theorem step_grid_coarse_quantization :
    reachable (fun _ => True) coarseGrid ∧
    coarseGrid.m_steps = 3 ∧
    coarseGrid.m_notes.map note.pos = [0, 8] ∧
    coarseGrid.m_notes.filter (isSlotNote 1) = [] ∧
    (vectorAt coarseGrid.m_notes 1).map note.pos = some 8 ∧
    vectorAt coarseGrid.m_notes 2 = none ∧
    coarseGrid.mousePressEvent true 192 true 2 = none ∧
    coarseGrid.wheelEvent 192 true 2 120 = none := by
  refine ⟨reachable.cleared coarseEnv trivial _ ⟨by decide, by decide⟩,
    by decide, by decide, by decide, by decide, by decide, by decide, by decide⟩

/-! ## Saving and loading -/

theorem foldl_keeps {α β : Type} (f : pattern → α → pattern) (proj : pattern → β)
    (hf : ∀ q a, proj (f q a) = proj q) (l : List α) (p : pattern) :
    proj (l.foldl f p) = proj p := by
  induction l generalizing p with
  | nil => rfl
  | cons a rest ih => rw [List.foldl_cons, ih, hf]

theorem checkType_name (p : pattern) : p.checkType.m_name = p.m_name := by
  unfold pattern.checkType pattern.setType
  split <;> simp

theorem checkType_muted (p : pattern) : p.checkType.m_muted = p.m_muted := by
  unfold pattern.checkType pattern.setType
  split <;> simp

theorem addNote_name (env : environment) (p : pattern) (n : note) (q : Bool) :
    (p.addNote env n q).m_name = p.m_name := by
  unfold pattern.addNote pattern.update pattern.changeLength
  simp [checkType_name]

theorem addNote_muted (env : environment) (p : pattern) (n : note) (q : Bool) :
    (p.addNote env n q).m_muted = p.m_muted := by
  unfold pattern.addNote pattern.update pattern.changeLength
  simp [checkType_muted]

theorem ensureBeatNotes_name (env : environment) (p : pattern) :
    (p.ensureBeatNotes env).m_name = p.m_name := by
  unfold pattern.ensureBeatNotes
  apply foldl_keeps _ (fun q => q.m_name)
  intro q i
  unfold pattern.ensureBeatNote
  simp only []
  split
  · exact addNote_name env q _ _
  · rfl

theorem ensureBeatNotes_muted (env : environment) (p : pattern) :
    (p.ensureBeatNotes env).m_muted = p.m_muted := by
  unfold pattern.ensureBeatNotes
  apply foldl_keeps _ (fun q => q.m_muted)
  intro q i
  unfold pattern.ensureBeatNote
  simp only []
  split
  · exact addNote_muted env q _ _
  · rfl

theorem loadNode_name (p : pattern) (c : domNode) : (p.loadNode c).m_name = p.m_name := by
  unfold pattern.loadNode; split <;> rfl

theorem loadNode_muted (p : pattern) (c : domNode) : (p.loadNode c).m_muted = p.m_muted := by
  unfold pattern.loadNode; split <;> rfl

theorem unfreeze_heapTop (p : pattern) : p.unfreeze.heapTop = p.heapTop := by
  unfold pattern.unfreeze; split <;> rfl

theorem unfreeze_muted (p : pattern) : p.unfreeze.m_muted = p.m_muted := by
  unfold pattern.unfreeze; split <;> rfl

theorem nonZeroData_eq_filter (l : List note) :
    nonZeroData l = (l.map noteData).filter (fun d => decide (d.2.1 ≠ 0)) := by
  induction l with
  | nil => rfl
  | cons x rest ih =>
    unfold nonZeroData at ih ⊢
    by_cases hx : x.length ≠ 0
    · have hd : (noteData x).2.1 ≠ 0 := hx
      rw [List.filter_cons, if_pos (by simpa using hx), List.map_cons, List.map_cons,
        List.filter_cons, if_pos (by simpa using hd), ih]
    · have hd : ¬ (noteData x).2.1 ≠ 0 := hx
      rw [List.filter_cons, if_neg (by simpa using hx), List.map_cons,
        List.filter_cons, if_neg (by simpa using hd), ih]

theorem nonZeroData_filter (l : List note) :
    nonZeroData (l.filter (fun n => decide (n.length ≠ 0))) = nonZeroData l := by
  unfold nonZeroData
  rw [List.filter_filter]
  simp

theorem nonZeroData_append (A B : List note) :
    nonZeroData (A ++ B) = nonZeroData A ++ nonZeroData B := by
  simp [nonZeroData]

theorem nonZeroData_insertBefore (n : note) (l : List note) (h : n.length = 0) :
    nonZeroData (insertBefore n l) = nonZeroData l := by
  induction l with
  | nil => simp [insertBefore, nonZeroData, h]
  | cons x rest ih =>
    unfold insertBefore
    split
    · have e1 : x :: insertBefore n rest = [x] ++ insertBefore n rest := rfl
      have e2 : x :: rest = [x] ++ rest := rfl
      rw [e1, e2, nonZeroData_append, nonZeroData_append, ih]
    · simp [nonZeroData, h]

theorem nonZeroData_placeNote (l : List note) (n : note) (h : n.length = 0) :
    nonZeroData (placeNote l n) = nonZeroData l := by
  have happ : nonZeroData (l ++ [n]) = nonZeroData l := by
    rw [nonZeroData_append]; simp [nonZeroData, h]
  unfold placeNote
  split
  · exact happ
  · split
    · exact happ
    · exact nonZeroData_insertBefore n l h

theorem any_positive_eq (l : List note) :
    l.any (fun n => decide (0 < n.length)) =
      (nonZeroData l).any (fun d => decide (0 < d.2.1)) := by
  induction l with
  | nil => rfl
  | cons x rest ih =>
    have e : x :: rest = [x] ++ rest := rfl
    rw [List.any_cons, ih, e, nonZeroData_append, List.any_append]
    congr 1
    by_cases hx : x.length = 0
    · simp [nonZeroData, hx]
    · simp [nonZeroData, hx, noteData]

theorem storedNote_length (env : environment) (p : pattern) (n : note) (q : Bool) :
    (storedNote env p n q).length = n.length ∧ (storedNote env p n q).addr = p.heapTop := by
  unfold storedNote; split <;> exact ⟨rfl, rfl⟩

theorem ensureBeatNote_keeps (env : environment) (p : pattern) (i : Nat) :
    nonZeroData (p.ensureBeatNote env i).m_notes = nonZeroData p.m_notes ∧
    p.heapTop ≤ (p.ensureBeatNote env i).heapTop ∧
    ∀ n ∈ (p.ensureBeatNote env i).m_notes, n ∈ p.m_notes ∨ p.heapTop ≤ n.addr := by
  unfold pattern.ensureBeatNote
  simp only []
  split
  · obtain ⟨hl, ha⟩ := storedNote_length env p
      ⟨0, (i : Int) * BEATS_PER_TACT, 0, env.stepKey, env.stepVolume⟩ env.quantDefault
    rw [addNote_notes, addNote_heapTop]
    refine ⟨nonZeroData_placeNote _ _ hl, Nat.le_succ _, ?_⟩
    intro n hn
    rcases (mem_placeNote _ _ n).1 hn with hn | hn
    · right; rw [hn, ha]
    · exact Or.inl hn
  · exact ⟨rfl, le_refl _, fun n hn => Or.inl hn⟩

theorem ensureBeatNotes_fold_keeps (env : environment) (l : List Nat) (p : pattern) :
    nonZeroData (l.foldl (pattern.ensureBeatNote env) p).m_notes = nonZeroData p.m_notes ∧
    p.heapTop ≤ (l.foldl (pattern.ensureBeatNote env) p).heapTop ∧
    ∀ n ∈ (l.foldl (pattern.ensureBeatNote env) p).m_notes,
      n ∈ p.m_notes ∨ p.heapTop ≤ n.addr := by
  induction l generalizing p with
  | nil => exact ⟨rfl, le_refl _, fun n hn => Or.inl hn⟩
  | cons i rest ih =>
    rw [List.foldl_cons]
    obtain ⟨h1, h2, h3⟩ := ensureBeatNote_keeps env p i
    obtain ⟨k1, k2, k3⟩ := ih (p.ensureBeatNote env i)
    refine ⟨by rw [k1, h1], le_trans h2 k2, ?_⟩
    intro n hn
    rcases k3 n hn with hn | hn
    · exact h3 n hn
    · exact Or.inr (le_trans h2 hn)

theorem loadNode_fold (L : List note) (p : pattern) :
    ∃ R : List note,
      ((L.map note.saveState).foldl pattern.loadNode p).m_notes = p.m_notes ++ R ∧
      R.map noteData = L.map noteData ∧
      ((L.map note.saveState).foldl pattern.loadNode p).heapTop = p.heapTop + L.length := by
  induction L generalizing p with
  | nil => exact ⟨[], by simp, rfl, rfl⟩
  | cons x rest ih =>
    have hstep : p.loadNode x.saveState =
        { p with m_notes := p.m_notes ++ [note.restoreState p.heapTop x.saveState],
                 heapTop := p.heapTop + 1 } := by
      unfold pattern.loadNode
      rw [if_pos ⟨rfl, rfl⟩]
    obtain ⟨R, h1, h2, h3⟩ := ih (p.loadNode x.saveState)
    refine ⟨note.restoreState p.heapTop x.saveState :: R, ?_, ?_, ?_⟩
    · rw [List.map_cons, List.foldl_cons, h1, hstep]; simp
    · rw [List.map_cons, List.map_cons, h2]; rfl
    · rw [List.map_cons, List.foldl_cons, h3, hstep, List.length_cons]
      simp only []
      omega

theorem loadSettings_saved (env : environment) (q p : pattern) (clip : Bool) :
    ∃ p5 : pattern,
      p5.m_notes = [] ∧ p5.heapTop = q.heapTop ∧ p5.m_name = p.m_name ∧
      p5.m_muted = p.m_muted ∧
      q.loadSettings env (p.saveSettings clip) =
        ((({ (p.saveSettings clip).children.foldl pattern.loadNode p5 with
              m_steps := if p.m_steps = 0 then DEFAULT_STEPS_PER_TACT else p.m_steps }
            : pattern).ensureBeatNotes env).checkType).update := by
  unfold pattern.loadSettings
  simp only []
  refine ⟨_, ?_, ?_, ?_, ?_, rfl⟩
  · exact clearNotes_notes _
  · rw [clearNotes_heapTop]
    split_ifs <;>
      simp [pattern.toggleMute, pattern.movePosition, pattern.changeLength, unfreeze_heapTop]
  · unfold pattern.clearNotes
    simp only [pattern.update, pattern.changeLength, checkType_name]
    split_ifs <;> simp [pattern.toggleMute, pattern.movePosition, pattern.saveSettings]
  · unfold pattern.clearNotes
    simp only [pattern.update, pattern.changeLength, checkType_muted]
    cases hm : p.m_muted <;> cases hq : q.m_muted <;>
      split_ifs <;>
      simp_all [pattern.toggleMute, pattern.movePosition, pattern.saveSettings, unfreeze_muted]

/-- C7: save/load round trip.  For a pattern `p` with at least one step whose type
agrees with `checkType`, loading the record written by `saveSettings` into any
pattern `q` (a fresh one in particular) gives a pattern whose notes of non-zero
length are those of `p` in the same order with the same position, length, key and
volume, and whose type, number of steps, name and mute flag are those of `p`; the
record holds no note of length 0, and every note of length 0 of the loaded pattern
was allocated after the notes of the record had been read, that is, by
`ensureBeatNotes`. -/
theorem save_load_round_trip (env : environment) (q p : pattern) (clip : Bool)
    (hs : 1 ≤ p.m_steps) (ht : p.checkType.m_patternType = p.m_patternType) :
    nonZeroData (q.loadSettings env (p.saveSettings clip)).m_notes = nonZeroData p.m_notes ∧
    (q.loadSettings env (p.saveSettings clip)).m_patternType = p.m_patternType ∧
    (q.loadSettings env (p.saveSettings clip)).m_steps = p.m_steps ∧
    (q.loadSettings env (p.saveSettings clip)).m_name = p.m_name ∧
    (q.loadSettings env (p.saveSettings clip)).m_muted = p.m_muted ∧
    (∀ c ∈ (p.saveSettings clip).children, c.length ≠ 0) ∧
    (∀ n ∈ (q.loadSettings env (p.saveSettings clip)).m_notes, n.length = 0 →
      q.heapTop + (p.saveSettings clip).children.length ≤ n.addr) := by
  obtain ⟨p5, h5n, h5t, h5name, h5m, hload⟩ := loadSettings_saved env q p clip
  rw [hload]
  have hchildren : (p.saveSettings clip).children =
      (p.m_notes.filter (fun n => decide (n.length ≠ 0))).map note.saveState := rfl
  rw [hchildren]
  obtain ⟨R, hR1, hR2, hR3⟩ :=
    loadNode_fold (p.m_notes.filter (fun n => decide (n.length ≠ 0))) p5
  rw [h5n, List.nil_append] at hR1
  have hname6 : ((List.map note.saveState
      (p.m_notes.filter (fun n => decide (n.length ≠ 0)))).foldl pattern.loadNode p5).m_name
        = p5.m_name := foldl_keeps _ (fun x => x.m_name) loadNode_name _ p5
  have hmuted6 : ((List.map note.saveState
      (p.m_notes.filter (fun n => decide (n.length ≠ 0)))).foldl pattern.loadNode p5).m_muted
        = p5.m_muted := foldl_keeps _ (fun x => x.m_muted) loadNode_muted _ p5
  generalize (List.map note.saveState
      (p.m_notes.filter (fun n => decide (n.length ≠ 0)))).foldl pattern.loadNode p5 = p6
    at hR1 hR3 hname6 hmuted6
  have hsteps : (if p.m_steps = 0 then DEFAULT_STEPS_PER_TACT else p.m_steps) = p.m_steps :=
    if_neg (by omega)
  rw [hsteps]
  have hRdata : nonZeroData R = nonZeroData p.m_notes := by
    rw [nonZeroData_eq_filter, hR2, ← nonZeroData_eq_filter, nonZeroData_filter]
  have hRnz : ∀ n ∈ R, n.length ≠ 0 := by
    intro n hn
    have hd : noteData n ∈ R.map noteData := List.mem_map_of_mem noteData hn
    rw [hR2] at hd
    obtain ⟨m, hm, hmd⟩ := List.mem_map.1 hd
    have hml : m.length ≠ 0 := by simpa using (List.mem_filter.1 hm).2
    have : m.length = n.length := congrArg (fun d => d.2.1) hmd
    rw [← this]; exact hml
  obtain ⟨k1, k2, k3⟩ := ensureBeatNotes_fold_keeps env (List.range p.m_steps.toNat)
    ({ p6 with m_steps := p.m_steps } : pattern)
  have hens : ({ p6 with m_steps := p.m_steps } : pattern).ensureBeatNotes env =
      (List.range p.m_steps.toNat).foldl (pattern.ensureBeatNote env)
        ({ p6 with m_steps := p.m_steps } : pattern) := rfl
  rw [← hens] at k1 k2 k3
  have hdata : nonZeroData (({ p6 with m_steps := p.m_steps } : pattern).ensureBeatNotes env).m_notes
      = nonZeroData p.m_notes := by
    rw [k1]; show nonZeroData p6.m_notes = _; rw [hR1]; exact hRdata
  simp only [update_notes, update_type, update_steps, checkType_notes, checkType_steps,
    ensureBeatNotes_steps]
  refine ⟨hdata, ?_, trivial, ?_, ?_, ?_, ?_⟩
  · rw [checkType_type, any_positive_eq, hdata, ← any_positive_eq, ← checkType_type, ht]
  · show (pattern.checkType _).m_name = _
    rw [checkType_name, ensureBeatNotes_name]
    show p6.m_name = _
    rw [hname6, h5name]
  · show (pattern.checkType _).m_muted = _
    rw [checkType_muted, ensureBeatNotes_muted]
    show p6.m_muted = _
    rw [hmuted6, h5m]
  · intro c hc
    obtain ⟨m, hm, hmc⟩ := List.mem_map.1 hc
    have hml : m.length ≠ 0 := by simpa using (List.mem_filter.1 hm).2
    rw [← hmc]; exact hml
  · intro n hn hzero
    rw [List.length_map]
    rcases k3 n hn with hold | hnew
    · have hnR : n ∈ R := by rw [← hR1]; exact hold
      exact absurd hzero (hRnz n hnR)
    · have : ({ p6 with m_steps := p.m_steps } : pattern).heapTop = p6.heapTop := rfl
      rw [this, hR3, h5t] at hnew
      exact hnew

/-- An instance of C7: the melody demo pattern saved and loaded into an empty pattern. -/
theorem save_load_round_trip_witness :
    nonZeroData (emptyPattern.loadSettings plainEnv (melodyDemo.saveSettings false)).m_notes
      = nonZeroData melodyDemo.m_notes ∧
    (emptyPattern.loadSettings plainEnv (melodyDemo.saveSettings false)).m_patternType
      = melodyDemo.m_patternType :=
  ⟨(save_load_round_trip plainEnv emptyPattern melodyDemo false (by decide) (by decide)).1,
   (save_load_round_trip plainEnv emptyPattern melodyDemo false (by decide) (by decide)).2.1⟩

/-! ## The freeze thread -/

theorem progressValues_append (a b : List freezeEvent) :
    progressValues (a ++ b) = progressValues a ++ progressValues b := by
  induction a with
  | nil => rfl
  | cons e rest ih =>
    cases e <;> simp [progressValues, ih]

theorem renderLoop_trace (w : freezeWorld) (len : Int) (fuel : Nat) (s s1 : loopState)
    (h : renderLoop w len fuel s = some s1) :
    ∃ (k : Nat) (extra : List freezeEvent),
      s1.buffers = s.buffers + k ∧ s1.trace = s.trace ++ extra ∧
      (∀ e ∈ extra, loopEvent e = true) ∧
      progressValues extra
        = (List.range k).map (fun i => progressAfter w len (s.buffers + i + 1)) ∧
      (∀ i : Nat, i < k → w.playPos (s.buffers + i) < len) ∧
      s.reads ≤ s1.reads := by
  induction fuel generalizing s with
  | zero => simp [renderLoop] at h
  | succ fuel ih =>
    unfold renderLoop at h
    split at h
    · rename_i hpos
      split at h
      · obtain ⟨k, extra, hb, ht, hev, hpv, hlt, hr⟩ := ih _ h
        refine ⟨k + 1, [freezeEvent.processNextBuffer,
          freezeEvent.setProgress (progressAfter w len (s.buffers + 1))] ++ extra,
          ?_, ?_, ?_, ?_, ?_, ?_⟩
        · rw [hb]; simp only []; omega
        · rw [ht]; simp
        · intro e he
          rcases List.mem_append.1 he with he | he
          · simp only [List.mem_cons, List.mem_singleton, List.not_mem_nil, or_false] at he
            rcases he with rfl | rfl <;> rfl
          · exact hev e he
        · rw [progressValues_append, hpv, List.range_succ_eq_map, List.map_cons, List.map_map]
          simp only [progressValues, List.nil_append, List.cons_append, Nat.add_zero,
            List.cons.injEq, true_and]
          apply List.map_congr_left
          intro i _
          simp only [Function.comp]
          congr 1
          omega
        · intro i hi
          cases i with
          | zero => simpa using hpos
          | succ i =>
            have := hlt i (by omega)
            simp only [] at this
            have e : s.buffers + (i + 1) = s.buffers + 1 + i := by omega
            rw [e]; exact this
        · simp only [] at hr; omega
      · cases h
        exact ⟨0, [], rfl, by simp, by simp, rfl, fun i hi => absurd hi (Nat.not_lt_zero i),
          Nat.le_succ _⟩
    · cases h
      exact ⟨0, [], rfl, by simp, by simp, rfl, fun i hi => absurd hi (Nat.not_lt_zero i),
        le_refl _⟩

theorem tailLoop_trace (w : freezeWorld) (fuel : Nat) (s s2 : loopState)
    (h : tailLoop w fuel s = some s2) :
    ∃ extra : List freezeEvent,
      s2.trace = s.trace ++ extra ∧ (∀ e ∈ extra, loopEvent e = true) ∧
      progressValues extra = [] ∧ s.reads ≤ s2.reads := by
  induction fuel generalizing s with
  | zero => simp [tailLoop] at h
  | succ fuel ih =>
    unfold tailLoop at h
    split at h
    · split at h
      · obtain ⟨extra, ht, hev, hpv, hr⟩ := ih _ h
        refine ⟨freezeEvent.processNextBuffer :: extra, ?_, ?_, ?_, ?_⟩
        · rw [ht]; simp
        · intro e he
          rcases List.mem_cons.1 he with rfl | he
          · rfl
          · exact hev e he
        · simpa [progressValues] using hpv
        · simp only [] at hr; omega
      · cases h
        exact ⟨[], by simp, by simp, rfl, Nat.le_succ _⟩
    · cases h
      exact ⟨[], by simp, by simp, rfl, le_refl _⟩

theorem renderLoop_ends (w : freezeWorld) (len : Int) (a : Nat)
    (ha : ∀ k : Nat, a ≤ k → w.freezeAborted k = true) (fuel : Nat) (s : loopState)
    (h1 : 1 ≤ fuel) (h2 : a < fuel + s.reads) :
    ∃ s1, renderLoop w len fuel s = some s1 := by
  induction fuel generalizing s with
  | zero => omega
  | succ fuel ih =>
    unfold renderLoop
    split
    · split
      · rename_i hfalse
        have hlt : s.reads < a := by
          by_contra hge
          rw [ha s.reads (by omega)] at hfalse
          exact absurd hfalse (by simp)
        exact ih _ (by omega) (by simp only []; omega)
      · exact ⟨_, rfl⟩
    · exact ⟨_, rfl⟩

theorem tailLoop_ends (w : freezeWorld) (a : Nat)
    (ha : ∀ k : Nat, a ≤ k → w.freezeAborted k = true) (fuel : Nat) (s : loopState)
    (h1 : 1 ≤ fuel) (h2 : a < fuel + s.reads) :
    ∃ s2, tailLoop w fuel s = some s2 := by
  induction fuel generalizing s with
  | zero => omega
  | succ fuel ih =>
    unfold tailLoop
    split
    · split
      · rename_i hfalse
        have hlt : s.reads < a := by
          by_contra hge
          rw [ha s.reads (by omega)] at hfalse
          exact absurd hfalse (by simp)
        exact ih _ (by omega) (by simp only []; omega)
      · exact ⟨_, rfl⟩
    · exact ⟨_, rfl⟩

theorem run_shape (w : freezeWorld) (p : pattern) (m : mixerState) (fuel : Nat)
    (r : freezeRun) (h : patternFreezeThread.run w p m fuel = some r) :
    ∃ body tail : List freezeEvent,
      r.trace = [freezeEvent.setAudioDevice] ++ body ++ [freezeEvent.setProgress 100] ++ tail
        ++ [freezeEvent.stop]
        ++ (if w.freezeAborted (r.reads - 1) = false then [freezeEvent.createSampleBuffer]
            else [])
        ++ [freezeEvent.restoreAudioDevice, freezeEvent.setProgress (-1)] ∧
      (∀ e ∈ body, loopEvent e = true) ∧ (∀ e ∈ tail, loopEvent e = true) ∧
      progressValues body = (List.range r.rendered).map (fun i => progressAfter w p.length (i + 1)) ∧
      progressValues tail = [] ∧
      (∀ i : Nat, i < r.rendered → w.playPos i < p.length) ∧
      1 ≤ r.reads ∧
      r.pat.m_frozenPattern =
        (if w.freezeAborted (r.reads - 1) = false then some w.sampleBuffer
         else p.m_frozenPattern) ∧
      r.mixer.audioDev = m.audioDev := by
  unfold patternFreezeThread.run at h
  simp only [] at h
  split at h
  · exact absurd h (by simp)
  · rename_i s1 h1
    split at h
    · exact absurd h (by simp)
    · rename_i s2 h2
      obtain ⟨k, body, hb, ht, hev, hpv, hlt, _⟩ := renderLoop_trace w _ fuel _ s1 h1
      obtain ⟨tail, ht2, hev2, hpv2, _⟩ := tailLoop_trace w fuel _ s2 h2
      simp only [Nat.zero_add] at hb hpv hlt
      simp only [] at ht ht2
      cases h
      simp only [Nat.add_sub_cancel]
      refine ⟨body, tail, ?_, hev, hev2, ?_, hpv2, ?_, Nat.le_add_left 1 _, ?_, rfl⟩
      · rw [ht2, ht]
        split <;> simp
      · rw [hb]; exact hpv
      · intro i hi
        exact hlt i (by rw [hb] at hi; exact hi)
      · split <;> rfl

theorem loopEvent_count (l : List freezeEvent) (h : ∀ e ∈ l, loopEvent e = true) :
    l.count freezeEvent.restoreAudioDevice = 0 ∧ freezeEvent.createSampleBuffer ∉ l := by
  constructor
  · rw [List.count_eq_zero]
    intro hm
    exact absurd (h _ hm) (by decide)
  · intro hm
    exact absurd (h _ hm) (by decide)

/-- C11: in a run of the freeze thread in which some read of the abort flag finds the
flag set, and the flag stays set once it is, `createSampleBuffer` is not called and
the pattern keeps the `m_frozenPattern` it had at the start (the null value, when
the run was started through `freeze`), the audio device is restored exactly once and
is the device that was active before, and the last event is `setProgress( -1 )`;
such a run ends: once the flag is set at read `a`, the fuel `a + 1` suffices. -/
theorem abort_installs_no_buffer (w : freezeWorld)
    (hstay : ∀ i j : Nat, i ≤ j → w.freezeAborted i = true → w.freezeAborted j = true) :
    (∀ (p : pattern) (m : mixerState) (fuel : Nat) (r : freezeRun),
      patternFreezeThread.run w p m fuel = some r →
      (∃ k : Nat, k < r.reads ∧ w.freezeAborted k = true) →
        freezeEvent.createSampleBuffer ∉ r.trace ∧
        r.pat.m_frozenPattern = p.m_frozenPattern ∧
        r.trace.count freezeEvent.restoreAudioDevice = 1 ∧
        r.mixer.audioDev = m.audioDev ∧
        r.trace.getLast? = some (freezeEvent.setProgress (-1))) ∧
    (∀ (p : pattern) (m : mixerState) (a : Nat), w.freezeAborted a = true →
      ∃ r, patternFreezeThread.run w p m (a + 1) = some r) ∧
    (∀ (p : pattern) (m : mixerState) (playing trackMuted goOn : Bool) (fuel : Nat)
      (r : freezeRun), p.freeze w m playing trackMuted goOn fuel = some r →
      (∃ k : Nat, k < r.reads ∧ w.freezeAborted k = true) →
        r.pat.m_frozenPattern = none) := by
  have hmain : ∀ (p : pattern) (m : mixerState) (fuel : Nat) (r : freezeRun),
      patternFreezeThread.run w p m fuel = some r →
      (∃ k : Nat, k < r.reads ∧ w.freezeAborted k = true) →
        freezeEvent.createSampleBuffer ∉ r.trace ∧
        r.pat.m_frozenPattern = p.m_frozenPattern ∧
        r.trace.count freezeEvent.restoreAudioDevice = 1 ∧
        r.mixer.audioDev = m.audioDev ∧
        r.trace.getLast? = some (freezeEvent.setProgress (-1)) := by
    intro p m fuel r hrun hset
    obtain ⟨body, tail, ht, hb, htl, _, _, _, hreads, hfrozen, hmix⟩ :=
      run_shape w p m fuel r hrun
    obtain ⟨k, hk, hkset⟩ := hset
    have hlast : w.freezeAborted (r.reads - 1) = true := hstay k _ (by omega) hkset
    have hne : ¬ w.freezeAborted (r.reads - 1) = false := by simp [hlast]
    rw [if_neg hne] at ht hfrozen
    obtain ⟨cb, nb⟩ := loopEvent_count body hb
    obtain ⟨ct, nt⟩ := loopEvent_count tail htl
    refine ⟨?_, hfrozen, ?_, hmix, ?_⟩
    · rw [ht]
      simp only [List.mem_append, List.mem_cons, List.mem_singleton, List.not_mem_nil,
        or_false, not_or]
      simp [nb, nt]
    · rw [ht]
      simp only [List.count_append, cb, ct]
      decide
    · have ht2 : r.trace = ([freezeEvent.setAudioDevice] ++ body
          ++ [freezeEvent.setProgress 100] ++ tail ++ [freezeEvent.stop]
          ++ [freezeEvent.restoreAudioDevice]) ++ [freezeEvent.setProgress (-1)] := by
        rw [ht]; simp
      rw [ht2]
      exact List.getLast?_concat _
  refine ⟨hmain, ?_, ?_⟩
  · intro p m a ha
    have hafter : ∀ k : Nat, a ≤ k → w.freezeAborted k = true := fun k hk => hstay a k hk ha
    unfold patternFreezeThread.run
    simp only []
    obtain ⟨s1, h1⟩ := renderLoop_ends w
      ({ p with m_freezeAborted := false, m_freezing := true } : pattern).length a hafter
      (a + 1) { buffers := 0, reads := 0, trace := [freezeEvent.setAudioDevice] }
      (by omega) (by simp only []; omega)
    rw [h1]
    obtain ⟨s2, h2⟩ := tailLoop_ends w a hafter (a + 1)
      { s1 with trace := s1.trace ++ [freezeEvent.setProgress 100] }
      (by omega) (by simp only []; omega)
    simp only [h2]
    exact ⟨_, rfl⟩
  · intro p m playing trackMuted goOn fuel r hfreeze hset
    unfold pattern.freeze at hfreeze
    simp only [] at hfreeze
    split at hfreeze
    · cases hfreeze
      obtain ⟨k, hk, _⟩ := hset
      exact absurd hk (Nat.not_lt_zero k)
    · split at hfreeze
      · cases hfreeze
        obtain ⟨k, hk, _⟩ := hset
        exact absurd hk (Nat.not_lt_zero k)
      · rw [(hmain _ m fuel r hfreeze hset).2.1]
        split
        · rename_i hfrozen
          unfold pattern.unfreeze
          split
          · rfl
          · rename_i hnone
            exact absurd hnone hfrozen
        · rename_i hnone
          simpa using hnone

/-- An instance of C11: the dialog aborts at 50%; no buffer is made, the pattern stays
unfrozen and the device is restored once. -/
theorem abort_installs_no_buffer_witness :
    ∃ r, patternFreezeThread.run abortWorld emptyPattern liveMixer 3 = some r ∧
      freezeEvent.createSampleBuffer ∉ r.trace ∧
      r.pat.m_frozenPattern = none ∧
      r.trace.count freezeEvent.restoreAudioDevice = 1 := by
  have hstay : ∀ i j : Nat, i ≤ j → abortWorld.freezeAborted i = true →
      abortWorld.freezeAborted j = true := by
    intro i j hij hi
    simp only [abortWorld, decide_eq_true_eq] at hi ⊢
    omega
  obtain ⟨r, hr⟩ :=
    (abort_installs_no_buffer abortWorld hstay).2.1 emptyPattern liveMixer 2 (by decide)
  have hreads : (patternFreezeThread.run abortWorld emptyPattern liveMixer 3).map
      (fun x => x.reads) = some 5 := by decide
  rw [hr] at hreads
  have h5 : r.reads = 5 := by simpa using hreads
  have hall := (abort_installs_no_buffer abortWorld hstay).1 emptyPattern liveMixer 3 r hr
    ⟨2, by omega, by decide⟩
  exact ⟨r, hr, hall.1, hall.2.1, hall.2.2.1⟩

/-- C13, counterexample: the collection holds notes at positions 4 and 8; a new note
at position 4 is stored in front of the note that was at position 4 before. -/
theorem tie_order_counterexample :
    sortedByPos tieDemo.m_notes ∧
    (tieDemo.addNote plainEnv ⟨0, 4, 0, 60, 100⟩ false).m_notes
      = [⟨2, 4, 0, 60, 100⟩, ⟨0, 4, 0, 57, 100⟩, ⟨1, 8, 0, 57, 100⟩] := by
  decide

theorem insertBefore_split (n : note) (l : List note) (h : sortedByPos l) :
    ∃ A B : List note, l = A ++ B ∧ insertBefore n l = A ++ n :: B ∧
      (∀ a ∈ A, a.pos < n.pos) ∧ (∀ b ∈ B, n.pos ≤ b.pos) := by
  induction l with
  | nil => exact ⟨[], [], rfl, rfl, by simp, by simp⟩
  | cons x rest ih =>
    unfold sortedByPos at h ih
    rw [List.pairwise_cons] at h
    unfold insertBefore
    split
    · rename_i hlt
      obtain ⟨A, B, hl, hi, hA, hB⟩ := ih h.2
      refine ⟨x :: A, B, by rw [hl]; rfl, by rw [hi]; rfl, ?_, hB⟩
      intro a ha
      rcases List.mem_cons.1 ha with rfl | ha
      · exact hlt
      · exact hA a ha
    · rename_i hge
      have hnx : n.pos ≤ x.pos := not_lt.1 hge
      refine ⟨[], x :: rest, rfl, rfl, by simp, ?_⟩
      intro b hb
      rcases List.mem_cons.1 hb with rfl | hb
      · exact hnx
      · exact le_trans hnx (h.1 b hb)

/-- C13, amended: for a collection sorted by position, `addNote` appends the new note
when the collection is empty or its last note is at a position `<=` that of the new
note, so the new note then comes after every note, those of equal position
included; otherwise it puts the new note right before the first note whose position
is `>=` its own, so the new note comes after every note of smaller position and
before every note of the same or a greater position. -/
theorem addNote_placement (env : environment) (p : pattern) (n : note) (q : Bool)
    (hs : sortedByPos p.m_notes) :
    (p.m_notes = [] → (p.addNote env n q).m_notes = [storedNote env p n q]) ∧
    (∀ back : note, p.m_notes.getLast? = some back →
      back.pos ≤ (storedNote env p n q).pos →
        (p.addNote env n q).m_notes = p.m_notes ++ [storedNote env p n q]) ∧
    (∀ back : note, p.m_notes.getLast? = some back →
      (storedNote env p n q).pos < back.pos →
        ∃ A B : List note, p.m_notes = A ++ B ∧
          (p.addNote env n q).m_notes = A ++ storedNote env p n q :: B ∧
          (∀ a ∈ A, a.pos < (storedNote env p n q).pos) ∧
          (∀ b ∈ B, (storedNote env p n q).pos ≤ b.pos)) := by
  rw [addNote_notes]
  refine ⟨?_, ?_, ?_⟩
  · intro he
    rw [he]; rfl
  · intro back hb hle
    unfold placeNote
    rw [hb]
    simp only []
    rw [if_pos hle]
  · intro back hb hlt
    unfold placeNote
    rw [hb]
    simp only []
    rw [if_neg (not_le.2 hlt)]
    exact insertBefore_split _ _ hs

/-- An instance of C13: a note at position 4 added to the notes at positions 4 and 8. -/
theorem addNote_placement_witness :
    ∃ A B : List note, tieDemo.m_notes = A ++ B ∧
      (tieDemo.addNote plainEnv ⟨0, 4, 0, 60, 100⟩ false).m_notes
        = A ++ storedNote plainEnv tieDemo ⟨0, 4, 0, 60, 100⟩ false :: B ∧
      (∀ a ∈ A, a.pos < (storedNote plainEnv tieDemo ⟨0, 4, 0, 60, 100⟩ false).pos) ∧
      (∀ b ∈ B, (storedNote plainEnv tieDemo ⟨0, 4, 0, 60, 100⟩ false).pos ≤ b.pos) :=
  (addNote_placement plainEnv tieDemo ⟨0, 4, 0, 60, 100⟩ false (by decide)).2.2
    ⟨1, 8, 0, 57, 100⟩ rfl (by decide)

/-! ## The order of the notes after loading -/

/-- C14, counterexample: a record whose two note elements are at positions 8 and 0,
in this order; after `loadSettings` the collection is not sorted. -/
theorem load_unsorted_counterexample :
    (emptyPattern.loadSettings plainEnv unsortedRecord).m_notes.map note.pos = [8, 0, 0, 4] ∧
    ¬ sortedByPos (emptyPattern.loadSettings plainEnv unsortedRecord).m_notes := by
  decide

theorem sortedByPos_iff_map (l : List note) :
    sortedByPos l ↔ (l.map note.pos).Pairwise (fun a b => a ≤ b) := by
  unfold sortedByPos
  rw [List.pairwise_map]

theorem loadNode_fold_pos (children : List domNode) (p : pattern) :
    (children.foldl pattern.loadNode p).m_notes.map note.pos =
      p.m_notes.map note.pos ++
        (children.filter (fun c => c.isElement && decide (c.metadata = 0))).map domNode.pos := by
  induction children generalizing p with
  | nil => simp
  | cons c rest ih =>
    rw [List.foldl_cons, ih]
    unfold pattern.loadNode
    by_cases hc : c.isElement = true ∧ c.metadata = 0
    · have hf : (c.isElement && decide (c.metadata = 0)) = true := by simp [hc.1, hc.2]
      rw [if_pos hc, List.filter_cons, if_pos hf]
      simp [note.restoreState]
    · have hf : ¬ (c.isElement && decide (c.metadata = 0)) = true := by
        simpa using hc
      rw [if_neg hc, List.filter_cons, if_neg hf]

theorem sortedByPos_ensureBeatNotes (env : environment) (p : pattern)
    (h : sortedByPos p.m_notes) : sortedByPos (p.ensureBeatNotes env).m_notes := by
  unfold pattern.ensureBeatNotes
  generalize List.range p.m_steps.toNat = l
  induction l generalizing p with
  | nil => exact h
  | cons i rest ih =>
    rw [List.foldl_cons]
    apply ih
    unfold pattern.ensureBeatNote
    simp only []
    split
    · exact sortedByPos_addNote env p _ _ h
    · exact h

theorem loadSettings_notes (env : environment) (q : pattern) (r : patternRecord) :
    ∃ p5 : pattern, p5.m_notes = [] ∧
      (q.loadSettings env r).m_notes =
        (({ r.children.foldl pattern.loadNode p5 with
              m_steps := if r.steps = 0 then DEFAULT_STEPS_PER_TACT else r.steps }
            : pattern).ensureBeatNotes env).m_notes := by
  unfold pattern.loadSettings
  simp only [update_notes, checkType_notes]
  exact ⟨_, clearNotes_notes _, rfl⟩

theorem saveSettings_noteNodes (p : pattern) (clip : Bool) :
    (p.saveSettings clip).noteNodes.map domNode.pos =
      (p.m_notes.filter (fun n => decide (n.length ≠ 0))).map note.pos := by
  unfold patternRecord.noteNodes pattern.saveSettings
  simp only []
  have hall : ∀ c ∈ (p.m_notes.filter (fun n => decide (n.length ≠ 0))).map note.saveState,
      (c.isElement && decide (c.metadata = 0)) = true := by
    intro c hc
    obtain ⟨n, _, hn⟩ := List.mem_map.1 hc
    rw [← hn]; rfl
  rw [List.filter_eq_self.2 hall, List.map_map]
  rfl

/-- C14, amended: when the note elements of a record are in the order of
non-decreasing position, the collection is sorted by position after `loadSettings`
(the notes of the record together with the slot notes made by `ensureBeatNotes`);
this is so for every record that `saveSettings` writes for a sorted collection. -/
theorem load_keeps_record_order (env : environment) (q : pattern) :
    (∀ r : patternRecord, r.noteNodes.Pairwise (fun a b => a.pos ≤ b.pos) →
      sortedByPos (q.loadSettings env r).m_notes) ∧
    (∀ (p : pattern) (clip : Bool), sortedByPos p.m_notes →
      sortedByPos (q.loadSettings env (p.saveSettings clip)).m_notes) := by
  have hmain : ∀ r : patternRecord, r.noteNodes.Pairwise (fun a b => a.pos ≤ b.pos) →
      sortedByPos (q.loadSettings env r).m_notes := by
    intro r hr
    obtain ⟨p5, h5, hload⟩ := loadSettings_notes env q r
    rw [hload]
    apply sortedByPos_ensureBeatNotes
    show sortedByPos (r.children.foldl pattern.loadNode p5).m_notes
    rw [sortedByPos_iff_map, loadNode_fold_pos, h5, List.map_nil, List.nil_append,
      List.pairwise_map]
    exact hr
  refine ⟨hmain, ?_⟩
  intro p clip hp
  apply hmain
  have hpos := saveSettings_noteNodes p clip
  have hsorted : ((p.m_notes.filter (fun n => decide (n.length ≠ 0))).map note.pos).Pairwise
      (fun a b => a ≤ b) := by
    rw [← sortedByPos_iff_map]
    exact List.Pairwise.sublist (List.filter_sublist _) hp
  rw [← hpos, List.pairwise_map] at hsorted
  exact hsorted

/-- An instance of C14: the melody demo pattern, which is sorted, saved and loaded. -/
theorem load_keeps_record_order_witness :
    sortedByPos (emptyPattern.loadSettings plainEnv (melodyDemo.saveSettings false)).m_notes :=
  (load_keeps_record_order plainEnv emptyPattern).2 melodyDemo false (by decide)

/-! ## The range of the step volume -/

/-- C15: for the note of a step with volume `v` in `[0, 100]` and every wheel delta,
the wheel handler succeeds and stores the note changed by the volume step; the volume
stays in `[0, 100]` and no `Uint8` wraps: with a positive delta on an active step
(length `< 0`) the volume becomes `v + 5` when `v < 95` and the note is unchanged
otherwise; with a delta `<= 0` the volume becomes `v - 5` and the length is unchanged
when `v > 5`, and the length becomes 0 and the volume is unchanged when `v <= 5`. -/
theorem wheel_volume_in_range (p : pattern) (pixelsPerTact step delta : Int) (n : note)
    (hb : p.m_patternType = BEAT_PATTERN)
    (hw : 192 ≤ pixelsPerTact ∨ p.m_steps ≠ DEFAULT_STEPS_PER_TACT)
    (hstep : step < p.m_steps) (hn : vectorAt p.m_notes step = some n)
    (hv : n.volume ≤ 100) :
    (∃ p1, p.wheelEvent pixelsPerTact true step delta = some p1 ∧
      vectorAt p1.m_notes step = some (wheeledNote n delta)) ∧
    (wheeledNote n delta).volume ≤ 100 ∧
    (0 < delta → n.length < 0 → n.volume < 95 →
      wheeledNote n delta = { n with volume := n.volume + 5 }) ∧
    (0 < delta → n.length < 0 → 95 ≤ n.volume → wheeledNote n delta = n) ∧
    (delta ≤ 0 → 5 < n.volume →
      wheeledNote n delta = { n with volume := n.volume - 5 } ∧
      ((wheeledNote n delta).volume : Int) = (n.volume : Int) - 5) ∧
    (delta ≤ 0 → n.volume ≤ 5 → wheeledNote n delta = { n with length := 0 }) := by
  have hmod : ((n.volume : Int) % 256) = (n.volume : Int) := by omega
  refine ⟨⟨_, wheelEvent_step p pixelsPerTact step delta n hb hw hstep hn,
    vectorAt_set p.m_notes step n _ hn⟩, ?_, ?_, ?_, ?_, ?_⟩
  · unfold wheeledNote
    simp only [hmod]
    split
    · simp [note.setLength, note.setVolume]
    · split
      · split
        · simp only [note.setVolume]; omega
        · exact hv
      · split
        · simp only [note.setVolume]; omega
        · exact hv
  · intro hd hl hlt
    unfold wheeledNote
    simp only [hmod]
    rw [if_neg (by omega), if_pos hd, if_pos (by omega)]
    cases n
    simp only [note.setVolume, note.mk.injEq, true_and] at hlt ⊢
    omega
  · intro hd hl hge
    unfold wheeledNote
    simp only [hmod]
    rw [if_neg (by omega), if_pos hd, if_neg (by omega)]
  · intro hd hgt
    have hval : wheeledNote n delta = { n with volume := n.volume - 5 } := by
      unfold wheeledNote
      simp only [hmod]
      rw [if_neg (by omega), if_neg (by omega), if_pos (by omega)]
      cases n
      simp only [note.setVolume, note.mk.injEq, true_and] at hgt hv ⊢
      omega
    refine ⟨hval, ?_⟩
    rw [hval]
    simp only []
    omega
  · intro hd hle
    unfold wheeledNote
    simp only [hmod]
    rw [if_neg (by omega), if_neg (by omega), if_neg (by omega)]
    rfl

/-- An instance of C15: the wheel turned down over the active step 0 of the demo
pattern, whose volume is 100. -/
theorem wheel_volume_in_range_witness :
    wheeledNote ⟨0, 0, -64, 57, 100⟩ (-120) = ⟨0, 0, -64, 57, 95⟩ :=
  ((wheel_volume_in_range beatDemo 192 0 (-120) ⟨0, 0, -64, 57, 100⟩ rfl
    (Or.inl (by decide)) (by decide) (by decide) (by decide)).2.2.2.2.1
    (by decide) (by decide)).1
